import Mathlib

/-!
Verification of the poll-service core of a polling backend.

The repository holds two variants of the poll service:
* a transactional variant (`createPoll`, `updatePoll`, `deletePoll`,
  `voteOption`, `tagPoll`, `getAllTags`, `searchPollsByTag`, ...) which keeps
  a shared `pollTag` table plus a `pollTagMap` junction table, and
* a simple variant (`src/service/poll.ts`) which stores one `pollTag` row per
  `(poll, name)` pair and has no junction table.

Both are embedded below as pure functions over an explicit database state.
Row ids and timestamps are natural numbers; inserts allocate ids from a
`nextId` counter and every operation takes the current time `now` as a
parameter.  SQL `UPDATE ... WHERE c` is embedded as a `List.map` that rewrites
exactly the rows satisfying `c`; `findFirst` is `List.find?`;
`orderBy` is a stable insertion sort.
-/

namespace Tx

/-- Row of the `poll` table (transactional variant). -/
structure PollRow where
  id : Nat
  question : String
  extraInfo : Option String
  userId : Nat
  createdAt : Nat
  updatedAt : Nat
  isDeleted : Bool
deriving DecidableEq, Repr

/-- Row of the `poll_option` table: `optionKey`, `text`, `confidence` and a
denormalized vote `count`. -/
structure OptionRow where
  id : Nat
  pollId : Nat
  optionKey : String
  text : String
  confidence : String
  count : Int
  createdAt : Nat
  updatedAt : Nat
  isDeleted : Bool
deriving DecidableEq, Repr

/-- Row of the `poll_vote` table. -/
structure VoteRow where
  id : Nat
  pollId : Nat
  optionId : Nat
  userId : Nat
  createdAt : Nat
  isDeleted : Bool
deriving DecidableEq, Repr

/-- Row of the shared `poll_tag` table (no `pollId`: tags are per user). -/
structure TagRow where
  id : Nat
  name : String
  userId : Nat
  createdAt : Nat
  updatedAt : Nat
  isDeleted : Bool
deriving DecidableEq, Repr

/-- Row of the `poll_tag_map` junction table. -/
structure TagMapRow where
  id : Nat
  pollId : Nat
  tagId : Nat
  userId : Nat
  createdAt : Nat
  updatedAt : Nat
  isDeleted : Bool
deriving DecidableEq, Repr

/-- The database state of the transactional variant. -/
structure DB where
  nextId : Nat
  polls : List PollRow
  options : List OptionRow
  votes : List VoteRow
  tags : List TagRow
  tagMaps : List TagMapRow
deriving DecidableEq, Repr

/-- The empty database. -/
def DB.empty : DB := ⟨0, [], [], [], [], []⟩

/-- Input shape for one option of a poll payload. -/
structure OptionIn where
  optionKey : String
  text : String
  confidence : String
  count : Int
deriving DecidableEq, Repr

/-- Input shape for one tag of a poll payload. -/
structure TagIn where
  name : String
deriving DecidableEq, Repr

/-- A poll payload as received by `createPoll` / `updatePoll`.  `pollOptions`
and `tags` are `Option`al because `updatePoll` skips the corresponding
replacement when the field is absent. -/
structure PollIn where
  id : Nat
  question : String
  extraInfo : Option String
  userId : Option Nat
  pollOptions : Option (List OptionIn)
  tags : Option (List TagIn)
deriving DecidableEq, Repr

/-- Vote payload for the transactional `voteOption`. -/
structure VoteIn where
  pollId : Nat
  optionId : Nat
  userId : Option Nat
deriving DecidableEq, Repr

/-- The find-or-resurrect-or-create tag lookup shared verbatim by
`createPoll`, `updatePoll` and `tagPoll`: look up a tag by
`(name, userId)` (deleted or not); if found soft-deleted, flip
`isDeleted` back to `false`; if absent, insert a fresh row.  Returns the
tag row the caller should map to, together with the new state. -/
def findOrResurrectTag (name : String) (uid : Nat) (now : Nat) (st : DB) :
    TagRow × DB :=
  match st.tags.find? (fun t => t.name == name && t.userId == uid) with
  | some t =>
    if t.isDeleted then
      ({ t with isDeleted := false, updatedAt := now },
       { st with tags := st.tags.map (fun x =>
           if x.id == t.id then { x with isDeleted := false, updatedAt := now }
           else x) })
    else (t, st)
  | none =>
    let t : TagRow :=
      { id := st.nextId, name := name, userId := uid, createdAt := now
        updatedAt := now, isDeleted := false }
    (t, { st with nextId := st.nextId + 1, tags := st.tags ++ [t] })

/-- The `insert ... onConflictDoUpdate` upsert on the
`(pollId, tagId, userId)` key of `poll_tag_map`: if a row with the key
exists the conflict handler sets `isDeleted := false, createdAt := now`
on it, otherwise a fresh row is inserted. -/
def upsertTagMap (pid tid uid now : Nat) (st : DB) : DB :=
  if st.tagMaps.any (fun m =>
      m.pollId == pid && m.tagId == tid && m.userId == uid) then
    { st with tagMaps := st.tagMaps.map (fun m =>
        if m.pollId == pid && m.tagId == tid && m.userId == uid then
          { m with isDeleted := false, createdAt := now }
        else m) }
  else
    { st with
      nextId := st.nextId + 1
      tagMaps := st.tagMaps ++
        [{ id := st.nextId, pollId := pid, tagId := tid, userId := uid
           createdAt := now, updatedAt := now, isDeleted := false }] }

/-- One iteration of the tag-attachment loop: find-or-resurrect the tag,
then upsert its mapping to the poll. -/
def attachTag (pid uid now : Nat) (st : DB) (name : String) : DB :=
  let r := findOrResurrectTag name uid now st
  upsertTagMap pid r.1.id uid now r.2

/-- One iteration of the option-insertion loop shared by `createPoll` and
`updatePoll`: insert a fresh option row; `count: opt.count || 0` becomes
`if opt.count = 0 then 0 else opt.count` (JavaScript `||` replaces only the
falsy number 0). -/
def insertOptionRow (pid now : Nat) (s : DB) (opt : OptionIn) : DB :=
  { s with
    nextId := s.nextId + 1
    options := s.options ++
      [{ id := s.nextId, pollId := pid, optionKey := opt.optionKey
         text := opt.text, confidence := opt.confidence
         count := if opt.count = 0 then 0 else opt.count
         createdAt := now, updatedAt := now, isDeleted := false }] }

/-- Transactional `createPoll`: insert the poll row, insert each option
(`count: opt.count || 0` keeps any nonzero caller value), then attach each
tag.  Fails (`none`) when the payload carries no `userId`.  Returns the new
poll id together with the final state. -/
def createPoll (pollData : PollIn) (now : Nat) (st : DB) : Option (Nat × DB) :=
  match pollData.userId with
  | none => none
  | some uid =>
    let pid := st.nextId
    let pollRow : PollRow :=
      { id := pid, question := pollData.question
        extraInfo := pollData.extraInfo, userId := uid, createdAt := now
        updatedAt := now, isDeleted := false }
    let st1 := { st with nextId := st.nextId + 1, polls := st.polls ++ [pollRow] }
    let st2 := (pollData.pollOptions.getD []).foldl (insertOptionRow pid now) st1
    let st3 := (pollData.tags.getD []).foldl
      (fun s tg => attachTag pid uid now s tg.name) st2
    some (pid, st3)

/-- Soft-delete every `poll_tag_map` row of a poll (the first step of the
tag-set replacement inside `updatePoll`); only `isDeleted` is written. -/
def deleteAllMaps (pid : Nat) (st : DB) : DB :=
  { st with tagMaps := st.tagMaps.map (fun m =>
      if m.pollId == pid then { m with isDeleted := true } else m) }

/-- The set-tags-to-exactly-this-list reconciliation used by `updatePoll`:
soft-delete all of the poll's mappings, then re-attach each desired name. -/
def setPollTags (pid uid : Nat) (names : List String) (now : Nat) (st : DB) :
    DB :=
  names.foldl (fun s n => attachTag pid uid now s n) (deleteAllMaps pid st)

/-- Soft-delete every option row of a poll, then insert the new option list
(the replace-all option semantics of `updatePoll`). -/
def replaceOptions (pid : Nat) (newOpts : List OptionIn) (now : Nat) (st : DB) :
    DB :=
  let st1 := { st with options := st.options.map (fun o =>
      if o.pollId == pid then { o with isDeleted := true } else o) }
  newOpts.foldl (insertOptionRow pid now) st1

/-- Transactional `updatePoll`: throws (`none`) without a payload `userId`;
returns `some (false, st)` untouched when the poll is missing, deleted,
or owned by someone else; otherwise updates the scalar fields, replaces the
options when `pollOptions` is present, and reconciles the tag set when
`tags` is present.  The `Bool` records whether the poll was found. -/
def updatePoll (poll : PollIn) (now : Nat) (st : DB) : Option (Bool × DB) :=
  match poll.userId with
  | none => none
  | some uid =>
    match st.polls.find? (fun p =>
        p.id == poll.id && p.userId == uid && !p.isDeleted) with
    | none => some (false, st)
    | some _ =>
      let st1 := { st with polls := st.polls.map (fun p =>
          if p.id == poll.id then
            { p with
              question := poll.question, extraInfo := poll.extraInfo
              updatedAt := now }
          else p) }
      let st2 := match poll.pollOptions with
        | some newOpts => replaceOptions poll.id newOpts now st1
        | none => st1
      let st3 := match poll.tags with
        | some tgs => setPollTags poll.id uid (tgs.map (fun t => t.name)) now st2
        | none => st2
      some (true, st3)

/-- Transactional `deletePoll`: a single `UPDATE poll SET isDeleted WHERE
id AND userId`; returns `rowCount > 0`.  No other table is touched. -/
def deletePoll (pid uid now : Nat) (st : DB) : Bool × DB :=
  (st.polls.any (fun p => p.id == pid && p.userId == uid),
   { st with polls := st.polls.map (fun p =>
       if p.id == pid && p.userId == uid then
         { p with isDeleted := true, updatedAt := now }
       else p) })

/-- Transactional `voteOption`: validates that the option exists, belongs to
the given poll, and that the poll is alive; soft-deletes every prior active
vote of this user on this poll; inserts the new vote; increments the target
option's count by one (`count = count + 1`).  The previous option's count is
deliberately not decremented. -/
def voteOption (v : VoteIn) (now : Nat) (st : DB) : Option (Bool × DB) :=
  match v.userId with
  | none => none
  | some uid =>
    match st.options.find? (fun o =>
        o.id == v.optionId && o.pollId == v.pollId && !o.isDeleted) with
    | none => none
    | some _ =>
      match st.polls.find? (fun p => p.id == v.pollId && !p.isDeleted) with
      | none => none
      | some _ =>
        let st1 : DB := { st with votes := st.votes.map (fun w =>
            if w.pollId == v.pollId && w.userId == uid && !w.isDeleted then
              { w with isDeleted := true }
            else w) }
        let st2 : DB := { st1 with
          nextId := st1.nextId + 1
          votes := st1.votes ++
            [{ id := st1.nextId, pollId := v.pollId, optionId := v.optionId
               userId := uid, createdAt := now, isDeleted := false }] }
        some (true, { st2 with options := st2.options.map (fun o =>
            if o.id == v.optionId then { o with count := o.count + 1 }
            else o) })

/-- `tagPoll`: attach a single tag name to a poll the caller owns. -/
def tagPoll (pid : Nat) (tagName : String) (uid now : Nat) (st : DB) :
    Option (Bool × DB) :=
  match st.polls.find? (fun p =>
      p.id == pid && p.userId == uid && !p.isDeleted) with
  | none => none
  | some _ =>
    let r := findOrResurrectTag tagName uid now st
    some (true, upsertTagMap pid r.1.id uid now r.2)

/-- The hydrated poll returned by the read operations: active options
ordered by `createdAt` descending, and the active tags reached through
active mappings. -/
structure PollView where
  id : Nat
  question : String
  extraInfo : Option String
  userId : Nat
  options : List OptionRow
  tags : List TagRow
deriving DecidableEq, Repr

/-- Hydrate one poll row with its active options (ordered by `createdAt`
descending, a stable sort standing in for the SQL `ORDER BY`) and the
active tags of its active mappings. -/
def hydratePoll (p : PollRow) (st : DB) : PollView :=
  { id := p.id, question := p.question, extraInfo := p.extraInfo
    userId := p.userId
    options := List.insertionSort (fun a b : OptionRow => b.createdAt ≤ a.createdAt)
      (st.options.filter (fun o => o.pollId == p.id && !o.isDeleted)),
    tags := (st.tagMaps.filter (fun m =>
        m.pollId == p.id && !m.isDeleted)).filterMap (fun m =>
      match st.tags.find? (fun t => t.id == m.tagId) with
      | some t => if t.isDeleted then none else some t
      | none => none) }

/-- `getPollById` / `getPollWithRelations`: the poll must itself be alive. -/
def getPollById (pid : Nat) (st : DB) : Option PollView :=
  match st.polls.find? (fun p => p.id == pid && !p.isDeleted) with
  | none => none
  | some p => some (hydratePoll p st)

/-- One entry of the `getAllTags` result: a tag with its usage count. -/
structure TagUsage where
  id : Nat
  name : String
  userId : Nat
  count : Nat
deriving DecidableEq, Repr

/-- `getAllTags`: every active tag of the user with the number of active
mappings referencing it (a left join, so unused tags appear with count 0),
ordered by usage count descending then name ascending. -/
def getAllTags (uid : Nat) (st : DB) : List TagUsage :=
  List.insertionSort
    (fun a b : TagUsage => b.count < a.count ∨ (a.count = b.count ∧ a.name ≤ b.name))
    ((st.tags.filter (fun t => t.userId == uid && !t.isDeleted)).map (fun t =>
      { id := t.id, name := t.name, userId := t.userId
        count := (st.tagMaps.filter (fun m =>
            m.tagId == t.id && !m.isDeleted)).length }))

/-- `searchPollsByTag`: alive polls having at least one active mapping to
the tag id, newest first, with offset/limit pagination, hydrated. -/
def searchPollsByTag (tagId : Nat) (limit offset : Nat) (st : DB) :
    List PollView :=
  let matching := st.polls.filter (fun p =>
    !p.isDeleted && st.tagMaps.any (fun m =>
      m.pollId == p.id && m.tagId == tagId && !m.isDeleted))
  (((List.insertionSort (fun a b : PollRow => b.createdAt ≤ a.createdAt)
      matching).drop offset).take limit).map (fun p => hydratePoll p st)

end Tx

namespace Simple

/-- Row of the `poll` table (simple variant). -/
structure PollRow where
  id : Nat
  question : String
  extraInfo : Option String
  userId : Nat
  createdAt : Nat
  updatedAt : Nat
  isDeleted : Bool
deriving DecidableEq, Repr

/-- Row of the `poll_option` table of the simple variant: options carry a
display `index` instead of an `optionKey`. -/
structure OptionRow where
  id : Nat
  pollId : Nat
  index : Int
  text : String
  count : Int
  createdAt : Nat
  updatedAt : Nat
  isDeleted : Bool
deriving DecidableEq, Repr

/-- Row of the simple variant's `poll_tag` table: one row per
`(poll, name)` pair, no junction table. -/
structure TagRow where
  id : Nat
  pollId : Nat
  name : String
  userId : Nat
  createdAt : Nat
  updatedAt : Nat
  isDeleted : Bool
deriving DecidableEq, Repr

/-- Row of the simple variant's `poll_vote` table; the vote stores the
client-supplied relative `diff`. -/
structure VoteRow where
  id : Nat
  pollId : Nat
  optionId : Nat
  userId : Nat
  diff : Int
  createdAt : Nat
  isDeleted : Bool
deriving DecidableEq, Repr

/-- The database state of the simple variant. -/
structure DB where
  nextId : Nat
  polls : List PollRow
  options : List OptionRow
  tags : List TagRow
  votes : List VoteRow
deriving DecidableEq, Repr

/-- The empty database. -/
def DB.empty : DB := ⟨0, [], [], [], []⟩

/-- Input shape for one option of a poll payload; `id` is used only by
`updatePoll` (the route fills it from the client payload). -/
structure OptionIn where
  id : Nat
  index : Int
  text : String
  count : Int
deriving DecidableEq, Repr

/-- Input shape for one tag of a poll payload. -/
structure TagIn where
  name : String
deriving DecidableEq, Repr

/-- A poll payload; `id` is meaningful only to `updatePoll`. -/
structure PollIn where
  id : Nat
  question : String
  extraInfo : Option String
  pollOptions : List OptionIn
  tags : List TagIn
deriving DecidableEq, Repr

/-- Vote payload: the route binds `userId` to the session user. -/
structure VoteIn where
  pollId : Nat
  optionId : Nat
  userId : Nat
  diff : Int
deriving DecidableEq, Repr

/-- Insert one option row for a poll (the caller-supplied `count` is
inserted verbatim). -/
def insertOptionRow (pid now : Nat) (s : DB) (opt : OptionIn) : DB :=
  { s with
    nextId := s.nextId + 1
    options := s.options ++
      [{ id := s.nextId, pollId := pid, index := opt.index, text := opt.text
         count := opt.count, createdAt := now, updatedAt := now
         isDeleted := false }] }

/-- Insert one `poll_tag` row `(pollId, name, userId)` for a poll. -/
def insertTagRow (pid uid now : Nat) (s : DB) (n : String) : DB :=
  { s with
    nextId := s.nextId + 1
    tags := s.tags ++
      [{ id := s.nextId, pollId := pid, name := n, userId := uid
         createdAt := now, updatedAt := now, isDeleted := false }] }

/-- Simple `createPoll`: insert the poll row, then one option row per
supplied option (the caller-supplied `count` is inserted verbatim), then one
`poll_tag` row per supplied tag.  Returns the new poll id and the state. -/
def createPoll (poll : PollIn) (uid now : Nat) (st : DB) : Nat × DB :=
  let pid := st.nextId
  let pollRow : PollRow :=
    { id := pid, question := poll.question, extraInfo := poll.extraInfo
      userId := uid, createdAt := now, updatedAt := now, isDeleted := false }
  let st1 : DB := { st with nextId := st.nextId + 1, polls := st.polls ++ [pollRow] }
  let st2 := poll.pollOptions.foldl (insertOptionRow pid now) st1
  let st3 := poll.tags.foldl (fun s tg => insertTagRow pid uid now s tg.name) st2
  (pid, st3)

/-- Simple `updatePoll`: updates the poll row (guarded by id, owner and
non-deleted state), rewrites each payload option row by its own id (no
ownership or poll check), then reconciles the poll's tag rows by name:
missing names are inserted, names absent from the payload are soft-deleted
by `(name, pollId)` alone.  Returns nothing. -/
def updatePoll (poll : PollIn) (uid now : Nat) (st : DB) : DB :=
  let st1 : DB := { st with polls := st.polls.map (fun p =>
      if p.id == poll.id && !p.isDeleted && p.userId == uid then
        { p with
          question := poll.question, extraInfo := poll.extraInfo
          updatedAt := now }
      else p) }
  let st2 : DB := poll.pollOptions.foldl (fun (s : DB) (opt : OptionIn) =>
    { s with options := s.options.map (fun o =>
        if o.id == opt.id && !o.isDeleted then
          { o with
            index := opt.index, text := opt.text, count := opt.count
            updatedAt := now }
        else o) }) st1
  let pollTags := st2.tags.filter (fun t => t.pollId == poll.id && !t.isDeleted)
  let insertNames := (poll.tags.filter (fun tg =>
      !(pollTags.any (fun t => t.name == tg.name)))).map (fun tg => tg.name)
  let deleteNames := (pollTags.filter (fun t =>
      !(poll.tags.any (fun tg => tg.name == t.name)))).map (fun t => t.name)
  let st3 : DB := insertNames.foldl (insertTagRow poll.id uid now) st2
  deleteNames.foldl (fun (s : DB) (n : String) =>
    { s with tags := s.tags.map (fun t =>
        if t.name == n && t.pollId == poll.id then
          { t with isDeleted := true, updatedAt := now }
        else t) }) st3

/-- Simple `deletePoll`: soft-deletes the poll row where `(id, userId)`
match, but soft-deletes every option row and every tag row of the poll by
`pollId` alone, with no ownership check.  Returns nothing. -/
def deletePoll (pid uid now : Nat) (st : DB) : DB :=
  { st with
    polls := st.polls.map (fun p =>
      if p.id == pid && p.userId == uid then
        { p with isDeleted := true, updatedAt := now }
      else p)
    options := st.options.map (fun o =>
      if o.pollId == pid then { o with isDeleted := true, updatedAt := now }
      else o)
    tags := st.tags.map (fun t =>
      if t.pollId == pid then { t with isDeleted := true, updatedAt := now }
      else t) }

/-- Simple `voteOption`: unconditionally inserts the vote row (with its
client-supplied `diff`) and sets the target option's count to
`GREATEST(count + diff, 0)`.  No prior vote is retired and nothing is
validated. -/
def voteOption (v : VoteIn) (now : Nat) (st : DB) : DB :=
  let st1 : DB := { st with
    nextId := st.nextId + 1
    votes := st.votes ++
      [{ id := st.nextId, pollId := v.pollId, optionId := v.optionId
         userId := v.userId, diff := v.diff, createdAt := now
         isDeleted := false }] }
  { st1 with options := st1.options.map (fun o =>
      if o.id == v.optionId then { o with count := max (o.count + v.diff) 0 }
      else o) }

/-- `getOptionsByPollId`: the poll's active options ordered by `index`
ascending (stable sort standing in for the SQL `ORDER BY`). -/
def getOptionsByPollId (pid : Nat) (st : DB) : List OptionRow :=
  List.insertionSort (fun a b : OptionRow => a.index ≤ b.index)
    (st.options.filter (fun o => o.pollId == pid && !o.isDeleted))

/-- `getPollTags`: the poll's active tag rows for the given user, ordered by
`createdAt` descending. -/
def getPollTags (pid uid : Nat) (st : DB) : List TagRow :=
  List.insertionSort (fun a b : TagRow => b.createdAt ≤ a.createdAt)
    (st.tags.filter (fun t =>
      t.pollId == pid && !t.isDeleted && t.userId == uid))

/-- One element of the `searchPollsByTagNames` result (the hydrated poll
object the service assembles per matching tag row). -/
structure SearchHit where
  pollId : Nat
  question : String
  userId : Nat
  options : List OptionRow
  tags : List TagRow
deriving DecidableEq, Repr

/-- Simple `searchPollsByTagNames`: finds the user's active tag rows whose
name is in `tagNames` and builds one hydrated poll per tag row (so a poll
with several matching tags is emitted several times); the poll row itself is
looked up by id only, with no `isDeleted` filter. -/
def searchPollsByTagNames (uid : Nat) (tagNames : List String) (st : DB) :
    List SearchHit :=
  (st.tags.filter (fun t =>
      t.userId == uid && tagNames.contains t.name && !t.isDeleted)).map
    (fun t =>
      { pollId := t.pollId
        question := ((st.polls.find? (fun p => p.id == t.pollId)).map
          (fun p => p.question)).getD ""
        userId := t.userId
        options := getOptionsByPollId t.pollId st
        tags := getPollTags t.pollId uid st })

end Simple

namespace Tx

/-- At most one `poll_tag` row per `(name, ownerUserId)` key: the shape the
shared tag table keeps when all writes go through the
find-or-resurrect-or-create logic. -/
def TagPerKeyUnique (st : DB) : Prop :=
  st.tags.Pairwise (fun a b => a.name ≠ b.name ∨ a.userId ≠ b.userId)

/-- At most one `poll_tag_map` row per `(pollId, tagId, userId)` key: the
shape the junction table keeps when all writes go through the upsert. -/
def MapPerKeyUnique (st : DB) : Prop :=
  st.tagMaps.Pairwise (fun a b =>
    a.pollId ≠ b.pollId ∨ a.tagId ≠ b.tagId ∨ a.userId ≠ b.userId)

/-- The conflict handler of the mapping upsert, keyed by the tag id it
targets: reactivate a `(pid, i, uid)` mapping row and stamp `createdAt`. -/
def resurrectKey (pid uid now i : Nat) (m : TagMapRow) : TagMapRow :=
  if m.pollId == pid && m.tagId == i && m.userId == uid then
    { m with isDeleted := false, createdAt := now }
  else m

/-- The tag ids the attachment loop resolves a name list to against a fixed
tag table: for each name, the id of the row the `(name, userId)` lookup
finds. -/
def keyTagIds (uid : Nat) (tags : List TagRow) (names : List String) :
    List Nat :=
  names.filterMap (fun n =>
    (tags.find? (fun x => x.name == n && x.userId == uid)).map (fun t => t.id))

/-- Tag row ids are pairwise distinct. -/
def TagIdsNodup (st : DB) : Prop :=
  (st.tags.map (fun t => t.id)).Nodup

/-- Poll row ids are pairwise distinct. -/
def PollIdsNodup (st : DB) : Prop :=
  (st.polls.map (fun p => p.id)).Nodup

/-- Option row ids are pairwise distinct. -/
def OptionIdsNodup (st : DB) : Prop :=
  (st.options.map (fun o => o.id)).Nodup

/-- Every id stored anywhere in the database (including foreign keys) is
below the allocation counter, so a freshly allocated id is referenced
nowhere. -/
def IdsFresh (st : DB) : Prop :=
  (∀ p ∈ st.polls, p.id < st.nextId) ∧
  (∀ o ∈ st.options, o.id < st.nextId ∧ o.pollId < st.nextId) ∧
  (∀ t ∈ st.tags, t.id < st.nextId) ∧
  (∀ m ∈ st.tagMaps, m.id < st.nextId ∧ m.pollId < st.nextId ∧
    m.tagId < st.nextId) ∧
  (∀ w ∈ st.votes, w.id < st.nextId ∧ w.pollId < st.nextId ∧
    w.optionId < st.nextId)

/-- The option rows `createPoll` / `updatePoll` produce for a payload
option list, starting from allocation counter `k`. -/
def mkOptionRows (pid now : Nat) : Nat → List OptionIn → List OptionRow
  | _, [] => []
  | k, opt :: rest =>
    { id := k, pollId := pid, optionKey := opt.optionKey, text := opt.text
      confidence := opt.confidence
      count := if opt.count = 0 then 0 else opt.count
      createdAt := now, updatedAt := now, isDeleted := false } ::
      mkOptionRows pid now (k + 1) rest

end Tx

namespace Simple

/-- Every id stored anywhere in the database (including foreign keys) is
below the allocation counter. -/
def IdsFresh (st : DB) : Prop :=
  (∀ p ∈ st.polls, p.id < st.nextId) ∧
  (∀ o ∈ st.options, o.id < st.nextId ∧ o.pollId < st.nextId) ∧
  (∀ t ∈ st.tags, t.id < st.nextId ∧ t.pollId < st.nextId) ∧
  (∀ w ∈ st.votes, w.id < st.nextId)

/-- The option rows the simple `createPoll` produces for a payload option
list, starting from allocation counter `k`. -/
def mkOptionRows (pid now : Nat) : Nat → List OptionIn → List OptionRow
  | _, [] => []
  | k, opt :: rest =>
    { id := k, pollId := pid, index := opt.index, text := opt.text
      count := opt.count, createdAt := now, updatedAt := now
      isDeleted := false } :: mkOptionRows pid now (k + 1) rest

/-- The tag rows the simple `createPoll` / `updatePoll` produce for a list
of names, starting from allocation counter `k`. -/
def mkTagRows (pid uid now : Nat) : Nat → List String → List TagRow
  | _, [] => []
  | k, n :: rest =>
    { id := k, pollId := pid, name := n, userId := uid, createdAt := now
      updatedAt := now, isDeleted := false } :: mkTagRows pid uid now (k + 1) rest

end Simple

/-! Concrete scenarios used by the counterexample and witness theorems. -/

/-- A two-option poll payload ("Cats or dogs?") owned by user 1. -/
def voteSwitchPayload : Tx.PollIn :=
  { id := 0, question := "Cats or dogs?", extraInfo := none, userId := some 1
    pollOptions := some [⟨"a", "Cats", "c", 0⟩, ⟨"b", "Dogs", "c", 0⟩]
    tags := some [] }

/-- State after creating the vote-switch poll: poll id 0, option 1 "Cats",
option 2 "Dogs", both with count 0. -/
def voteSwitchBase : Tx.DB :=
  ((Tx.createPoll voteSwitchPayload 0 Tx.DB.empty).getD (0, Tx.DB.empty)).2

/-- State after user 2 votes for option 1 ("Cats"). -/
def voteSwitchAfterA : Tx.DB :=
  ((Tx.voteOption ⟨0, 1, some 2⟩ 1 voteSwitchBase).getD (true, Tx.DB.empty)).2

/-- State after user 2 switches their vote to option 2 ("Dogs"). -/
def voteSwitchAfterB : Tx.DB :=
  ((Tx.voteOption ⟨0, 2, some 2⟩ 2 voteSwitchAfterA).getD (true, Tx.DB.empty)).2

/-- A poll payload with one option and one tag, owned by user 1. -/
def cascadeDemoPayload : Tx.PollIn :=
  { id := 0, question := "q", extraInfo := none, userId := some 1
    pollOptions := some [⟨"a", "A", "c", 0⟩], tags := some [⟨"pets"⟩] }

/-- State holding that poll: poll id 0, option id 1, tag id 2, mapping
id 3, all active. -/
def cascadeDemoSt : Tx.DB :=
  ((Tx.createPoll cascadeDemoPayload 0 Tx.DB.empty).getD (0, Tx.DB.empty)).2

/-- A payload whose single option carries the client-supplied count `-5`. -/
def negCountPayload : Tx.PollIn :=
  { id := 0, question := "q", extraInfo := none, userId := some 1
    pollOptions := some [⟨"a", "A", "c", -5⟩], tags := some [] }

/-- A simple-variant payload whose options arrive with descending indexes:
option "A" has index 1 and option "B" has index 0. -/
def unorderedPayload : Simple.PollIn :=
  { id := 0, question := "q", extraInfo := none
    pollOptions := [⟨0, 1, "A", 0⟩, ⟨0, 0, "B", 0⟩], tags := [] }

/-- State after user 1 creates the descending-index poll (poll id 0). -/
def unorderedSt : Simple.DB :=
  (Simple.createPoll unorderedPayload 1 0 Simple.DB.empty).2

/-- A simple-variant payload tagged with both "x" and "y". -/
def twoTagPayload : Simple.PollIn :=
  { id := 0, question := "q", extraInfo := none, pollOptions := []
    tags := [⟨"x"⟩, ⟨"y"⟩] }

/-- State after user 1 creates the doubly tagged poll (poll id 0). -/
def twoTagSt : Simple.DB :=
  (Simple.createPoll twoTagPayload 1 0 Simple.DB.empty).2

/-- A simple-variant payload with one option and one tag. -/
def hijackPayload : Simple.PollIn :=
  { id := 0, question := "q", extraInfo := none
    pollOptions := [⟨0, 0, "Opt", 0⟩], tags := [⟨"t"⟩] }

/-- State after user 1 creates that poll: poll id 0, option id 1, tag
row id 2, all active and owned by user 1. -/
def hijackSt : Simple.DB :=
  (Simple.createPoll hijackPayload 1 0 Simple.DB.empty).2

/-- A simple-variant payload whose single option carries the
client-supplied count `-7`. -/
def negCountPayloadS : Simple.PollIn :=
  { id := 0, question := "q", extraInfo := none
    pollOptions := [⟨0, 0, "A", -7⟩], tags := [] }

/-- State with one soft-deleted poll (id 0) whose tag "pets" (id 1) keeps
one active mapping (id 2). -/
def deadPollSt : Tx.DB :=
  { nextId := 4
    polls := [{ id := 0, question := "q", extraInfo := none, userId := 1
                createdAt := 0, updatedAt := 0, isDeleted := true }]
    options := []
    votes := []
    tags := [{ id := 1, name := "pets", userId := 1, createdAt := 0
               updatedAt := 0, isDeleted := false }]
    tagMaps := [{ id := 2, pollId := 0, tagId := 1, userId := 1
                  createdAt := 0, updatedAt := 0, isDeleted := false }] }
/-- State with a poll (id 0, owned by user 1) and a soft-deleted tag
"pets" (id 1) for the same user. -/
def resurrectSt : Tx.DB :=
  { nextId := 3
    polls := [{ id := 0, question := "q", extraInfo := none, userId := 1
                createdAt := 0, updatedAt := 0, isDeleted := false }]
    options := []
    votes := []
    tags := [{ id := 1, name := "pets", userId := 1, createdAt := 0
               updatedAt := 0, isDeleted := true }]
    tagMaps := [] }

/-- State after user 1 re-attaches "pets" to poll 0: the soft-deleted tag
row id 1 is resurrected and mapped, with no second "pets" row. -/
def resurrectAfter : Tx.DB :=
  ((Tx.tagPoll 0 "pets" 1 5 resurrectSt).getD (true, Tx.DB.empty)).2


/-! Helper lemmas about which tables each primitive touches. -/

namespace Tx

theorem findOrResurrectTag_polls (n : String) (uid now : Nat) (st : DB) :
    (findOrResurrectTag n uid now st).2.polls = st.polls := by
  unfold findOrResurrectTag
  cases h : st.tags.find? (fun t => t.name == n && t.userId == uid) with
  | none => simp only [h]
  | some t => simp only [h]; split <;> rfl

theorem findOrResurrectTag_options (n : String) (uid now : Nat) (st : DB) :
    (findOrResurrectTag n uid now st).2.options = st.options := by
  unfold findOrResurrectTag
  cases h : st.tags.find? (fun t => t.name == n && t.userId == uid) with
  | none => simp only [h]
  | some t => simp only [h]; split <;> rfl

theorem findOrResurrectTag_votes (n : String) (uid now : Nat) (st : DB) :
    (findOrResurrectTag n uid now st).2.votes = st.votes := by
  unfold findOrResurrectTag
  cases h : st.tags.find? (fun t => t.name == n && t.userId == uid) with
  | none => simp only [h]
  | some t => simp only [h]; split <;> rfl

theorem upsertTagMap_polls (pid tid uid now : Nat) (st : DB) :
    (upsertTagMap pid tid uid now st).polls = st.polls := by
  unfold upsertTagMap; split <;> rfl

theorem upsertTagMap_options (pid tid uid now : Nat) (st : DB) :
    (upsertTagMap pid tid uid now st).options = st.options := by
  unfold upsertTagMap; split <;> rfl

theorem upsertTagMap_votes (pid tid uid now : Nat) (st : DB) :
    (upsertTagMap pid tid uid now st).votes = st.votes := by
  unfold upsertTagMap; split <;> rfl

theorem upsertTagMap_tags (pid tid uid now : Nat) (st : DB) :
    (upsertTagMap pid tid uid now st).tags = st.tags := by
  unfold upsertTagMap; split <;> rfl

theorem attachTag_polls (pid uid now : Nat) (st : DB) (n : String) :
    (attachTag pid uid now st n).polls = st.polls := by
  unfold attachTag
  rw [upsertTagMap_polls, findOrResurrectTag_polls]

theorem attachTag_options (pid uid now : Nat) (st : DB) (n : String) :
    (attachTag pid uid now st n).options = st.options := by
  unfold attachTag
  rw [upsertTagMap_options, findOrResurrectTag_options]

theorem attachTag_votes (pid uid now : Nat) (st : DB) (n : String) :
    (attachTag pid uid now st n).votes = st.votes := by
  unfold attachTag
  rw [upsertTagMap_votes, findOrResurrectTag_votes]

theorem foldl_attachTag_options (pid uid now : Nat) (names : List String) :
    ∀ st : DB,
      (names.foldl (fun s n => attachTag pid uid now s n) st).options =
        st.options := by
  induction names with
  | nil => intro st; rfl
  | cons n rest ih =>
    intro st
    simp only [List.foldl_cons]
    rw [ih, attachTag_options]

theorem foldl_attachTag_polls (pid uid now : Nat) (names : List String) :
    ∀ st : DB,
      (names.foldl (fun s n => attachTag pid uid now s n) st).polls =
        st.polls := by
  induction names with
  | nil => intro st; rfl
  | cons n rest ih =>
    intro st
    simp only [List.foldl_cons]
    rw [ih, attachTag_polls]

theorem foldl_attachTag_votes (pid uid now : Nat) (names : List String) :
    ∀ st : DB,
      (names.foldl (fun s n => attachTag pid uid now s n) st).votes =
        st.votes := by
  induction names with
  | nil => intro st; rfl
  | cons n rest ih =>
    intro st
    simp only [List.foldl_cons]
    rw [ih, attachTag_votes]

theorem insertOptionRow_foldl (pid now : Nat) (opts : List OptionIn) :
    ∀ s : DB,
      opts.foldl (insertOptionRow pid now) s =
        { s with
          nextId := s.nextId + opts.length
          options := s.options ++ mkOptionRows pid now s.nextId opts } := by
  induction opts with
  | nil => intro s; simp [mkOptionRows]
  | cons o rest ih =>
    intro s
    simp only [List.foldl_cons, mkOptionRows, List.length_cons]
    rw [ih]
    simp only [insertOptionRow]
    congr 1
    · omega
    · simp

theorem mkOptionRows_map_count (pid now : Nat) (opts : List OptionIn) :
    ∀ k : Nat,
      (mkOptionRows pid now k opts).map (fun o => o.count) =
        opts.map (fun o => if o.count = 0 then 0 else o.count) := by
  induction opts with
  | nil => intro k; rfl
  | cons o rest ih => intro k; simp [mkOptionRows, ih]

end Tx

namespace Simple

theorem insertTagRow_foldl_options (pid uid now : Nat) (names : List String) :
    ∀ s : DB,
      (names.foldl (insertTagRow pid uid now) s).options = s.options := by
  induction names with
  | nil => intro s; rfl
  | cons n rest ih =>
    intro s
    simp only [List.foldl_cons]
    rw [ih]
    rfl

theorem insertOptionRow_foldl_simple (pid now : Nat) (opts : List OptionIn) :
    ∀ s : DB,
      opts.foldl (insertOptionRow pid now) s =
        { s with
          nextId := s.nextId + opts.length
          options := s.options ++ mkOptionRows pid now s.nextId opts } := by
  induction opts with
  | nil => intro s; simp [mkOptionRows]
  | cons o rest ih =>
    intro s
    simp only [List.foldl_cons, mkOptionRows, List.length_cons]
    rw [ih]
    simp only [insertOptionRow]
    congr 1
    · omega
    · simp

theorem mkOptionRows_map_count_simple (pid now : Nat) (opts : List OptionIn) :
    ∀ k : Nat,
      (mkOptionRows pid now k opts).map (fun o => o.count) =
        opts.map (fun o => o.count) := by
  induction opts with
  | nil => intro k; rfl
  | cons o rest ih => intro k; simp [mkOptionRows, ih]

end Simple

/-! Characterizations of `createPoll` in both variants. -/

namespace Simple

theorem createPoll_options (poll : PollIn) (uid now : Nat) (st : DB) :
    (createPoll poll uid now st).2.options =
      st.options ++ mkOptionRows st.nextId now (st.nextId + 1) poll.pollOptions := by
  unfold createPoll
  dsimp only
  rw [← List.foldl_map (fun tg : TagIn => tg.name) (insertTagRow st.nextId uid now)]
  rw [insertTagRow_foldl_options, insertOptionRow_foldl_simple]

end Simple

namespace Tx

theorem createPoll_eq (tpoll : PollIn) (tuid tnow : Nat) (tst : DB)
    (h : tpoll.userId = some tuid) :
    ∃ stF : DB, createPoll tpoll tnow tst = some (tst.nextId, stF) ∧
      stF.options = tst.options ++
        mkOptionRows tst.nextId tnow (tst.nextId + 1)
          (tpoll.pollOptions.getD []) ∧
      stF.polls = tst.polls ++
        [{ id := tst.nextId, question := tpoll.question
           extraInfo := tpoll.extraInfo, userId := tuid, createdAt := tnow
           updatedAt := tnow, isDeleted := false }] ∧
      stF.votes = tst.votes := by
  unfold createPoll
  rw [h]
  dsimp only
  refine ⟨_, rfl, ?_, ?_, ?_⟩
  · rw [← List.foldl_map (fun tg : TagIn => tg.name)
      (fun s n => attachTag tst.nextId tuid tnow s n)]
    rw [foldl_attachTag_options, insertOptionRow_foldl]
  · rw [← List.foldl_map (fun tg : TagIn => tg.name)
      (fun s n => attachTag tst.nextId tuid tnow s n)]
    rw [foldl_attachTag_polls, insertOptionRow_foldl]
  · rw [← List.foldl_map (fun tg : TagIn => tg.name)
      (fun s n => attachTag tst.nextId tuid tnow s n)]
    rw [foldl_attachTag_votes, insertOptionRow_foldl]

end Tx

/-! The claim theorems. -/

/-- C1 (amended): in the transactional variant, a voter who votes for
option A and then for option B on the same poll ends with exactly one
active vote, and it is for B; but option A's counter keeps its increment:
the previous option is never decremented, so A's count after the switch is
its pre-switch count plus one. -/
theorem C1_vote_switch
    (pid a bOpt u n1 n2 : Nat) (st st1 st2 : Tx.DB)
    (h1 : Tx.voteOption ⟨pid, a, some u⟩ n1 st = some (true, st1))
    (h2 : Tx.voteOption ⟨pid, bOpt, some u⟩ n2 st1 = some (true, st2))
    (hab : a ≠ bOpt) :
    ((st2.votes.filter (fun w =>
        w.pollId == pid && w.userId == u && !w.isDeleted)).map
        (fun w => w.optionId) = [bOpt]) ∧
    (∀ o ∈ st.options, o.id = a →
      ∃ o' ∈ st2.options, o'.id = a ∧ o'.count = o.count + 1) := by
  unfold Tx.voteOption at h1 h2
  dsimp only at h1 h2
  cases ho1 : st.options.find? (fun o =>
      o.id == a && o.pollId == pid && !o.isDeleted) with
  | none => rw [ho1] at h1; exact absurd h1 (by simp)
  | some oA =>
  rw [ho1] at h1
  dsimp only at h1
  cases hp1 : st.polls.find? (fun p => p.id == pid && !p.isDeleted) with
  | none => rw [hp1] at h1; exact absurd h1 (by simp)
  | some pA =>
  rw [hp1] at h1
  dsimp only at h1
  injection h1 with h1'
  injection h1' with _ hst1
  cases ho2 : st1.options.find? (fun o =>
      o.id == bOpt && o.pollId == pid && !o.isDeleted) with
  | none => rw [ho2] at h2; exact absurd h2 (by simp)
  | some oB =>
  rw [ho2] at h2
  dsimp only at h2
  cases hp2 : st1.polls.find? (fun p => p.id == pid && !p.isDeleted) with
  | none => rw [hp2] at h2; exact absurd h2 (by simp)
  | some pB =>
  rw [hp2] at h2
  dsimp only at h2
  injection h2 with h2'
  injection h2' with _ hst2
  subst hst2
  constructor
  · dsimp only
    rw [List.filter_append]
    have hnil : (st1.votes.map (fun w =>
        if w.pollId == pid && w.userId == u && !w.isDeleted then
          { w with isDeleted := true }
        else w)).filter (fun w =>
          w.pollId == pid && w.userId == u && !w.isDeleted) = [] := by
      rw [List.filter_eq_nil_iff]
      intro x hx
      obtain ⟨w, -, rfl⟩ := List.mem_map.mp hx
      by_cases hc : (w.pollId == pid && w.userId == u && !w.isDeleted) = true
      · rw [if_pos hc]; simp
      · rw [if_neg hc]; simpa using hc
    rw [hnil]
    simp
  · intro o hmem hoid
    subst hst1
    dsimp only
    have ha' : (o.id == a) = true := by simpa using hoid
    have hb' : (o.id == bOpt) = false := by simp [hoid]; simpa using hab
    refine ⟨_, List.mem_map_of_mem _ (List.mem_map_of_mem _ hmem), ?_, ?_⟩
    · simp [ha', hb', hoid, hab]
    · simp [ha', hb', hab]

/-- C1 counterexample: user 2 votes "Cats" (option 1, count 0) then
switches to "Dogs" (option 2) on poll 0.  Exactly one active vote remains,
and it is for option 2 — but option 1's count went from 0 to 1 and stays
at 1 after the switch, so "option A's count does not remain incremented"
is false on the code. -/
theorem C1_vote_switch_counterexample :
    ((voteSwitchAfterB.votes.filter (fun w =>
        w.pollId == 0 && w.userId == 2 && !w.isDeleted)).map
        (fun w => w.optionId) = [2]) ∧
    ((voteSwitchBase.options.find? (fun o => o.id == 1)).map
        (fun o => o.count) = some 0) ∧
    ((voteSwitchAfterB.options.find? (fun o => o.id == 1)).map
        (fun o => o.count) = some 1) := by
  decide

/-- C1 witness: the amended theorem applied to the concrete vote-switch
scenario. -/
theorem C1_vote_switch_witness :
    (voteSwitchAfterB.votes.filter (fun w =>
        w.pollId == 0 && w.userId == 2 && !w.isDeleted)).map
        (fun w => w.optionId) = [2] :=
  (C1_vote_switch 0 1 2 2 1 2 voteSwitchBase voteSwitchAfterA voteSwitchAfterB
    (by decide) (by decide) (by decide)).1

/-- C2: the claim says a non-owning caller's delete fails and mutates no
row; the simple variant's `deletePoll` violates this.  User 2 calls
`deletePoll` on user 1's poll: the poll row survives (the ownership check
guards only the poll table), yet the poll's option row and tag row are
soft-deleted with no ownership check at all. -/
theorem C2_nonowner_delete_mutates :
    (Simple.deletePoll 0 2 7 hijackSt).polls.map (fun p => p.isDeleted) =
      [false] ∧
    (Simple.deletePoll 0 2 7 hijackSt).options.map (fun o => o.isDeleted) =
      [true] ∧
    (Simple.deletePoll 0 2 7 hijackSt).tags.map (fun t => t.isDeleted) =
      [true] := by
  decide

/-- C3 (amended): the transactional `deletePoll` soft-deletes exactly the
poll rows matching `(pollId, ownerUserId)` and reports whether such a row
was affected, but it cascades nothing: options, tags, tag mappings and
votes are left untouched. -/
theorem C3_delete_scope (pid uid now : Nat) (st : Tx.DB) :
    (Tx.deletePoll pid uid now st).1 =
      st.polls.any (fun p => p.id == pid && p.userId == uid) ∧
    (Tx.deletePoll pid uid now st).2.polls =
      st.polls.map (fun p =>
        if p.id == pid && p.userId == uid then
          { p with isDeleted := true, updatedAt := now }
        else p) ∧
    (Tx.deletePoll pid uid now st).2.options = st.options ∧
    (Tx.deletePoll pid uid now st).2.tags = st.tags ∧
    (Tx.deletePoll pid uid now st).2.tagMaps = st.tagMaps ∧
    (Tx.deletePoll pid uid now st).2.votes = st.votes :=
  ⟨rfl, rfl, rfl, rfl, rfl, rfl⟩

/-- C3 counterexample: the owner deletes their one-option one-tag poll;
`deletePoll` returns `true` and marks the poll row deleted, but the
option row and the tag mapping stay active — the soft-delete did not
cascade as the claim states. -/
theorem C3_delete_scope_counterexample :
    (Tx.deletePoll 0 1 5 cascadeDemoSt).1 = true ∧
    (Tx.deletePoll 0 1 5 cascadeDemoSt).2.polls.map (fun p => p.isDeleted) =
      [true] ∧
    (Tx.deletePoll 0 1 5 cascadeDemoSt).2.options.map (fun o => o.isDeleted) =
      [false] ∧
    (Tx.deletePoll 0 1 5 cascadeDemoSt).2.tagMaps.map (fun m => m.isDeleted) =
      [false] := by
  decide

/-- C6 (amended): every vote updates the target option's counter by a
relative server-side formula — `count := max (count + diff) 0` in the
simple variant (hence never negative on the voted option) and
`count := count + 1` in the transactional variant — never by a
client-supplied absolute value; however counts can be negative after
`createPoll`, which stores caller-supplied initial counts. -/
theorem C6_vote_relative
    (v : Simple.VoteIn) (snow : Nat) (sst : Simple.DB)
    (tv : Tx.VoteIn) (tnow : Nat) (tst : Tx.DB) (b : Bool) (tst' : Tx.DB)
    (h : Tx.voteOption tv tnow tst = some (b, tst')) :
    ((Simple.voteOption v snow sst).options =
      sst.options.map (fun o =>
        if o.id == v.optionId then
          { o with count := max (o.count + v.diff) 0 }
        else o)) ∧
    (∀ o' ∈ (Simple.voteOption v snow sst).options,
      o'.id = v.optionId → 0 ≤ o'.count) ∧
    (tst'.options = tst.options.map (fun o =>
      if o.id == tv.optionId then { o with count := o.count + 1 } else o)) := by
  refine ⟨rfl, ?_, ?_⟩
  · intro o' hmem hid
    have hmem' : o' ∈ sst.options.map (fun o =>
        if o.id == v.optionId then
          { o with count := max (o.count + v.diff) 0 }
        else o) := hmem
    obtain ⟨o, -, rfl⟩ := List.mem_map.mp hmem'
    by_cases hc : (o.id == v.optionId) = true
    · rw [if_pos hc]
      exact le_max_right _ _
    · rw [if_neg hc] at hid
      exact absurd hid (by simpa using hc)
  · unfold Tx.voteOption at h
    cases hu : tv.userId with
    | none => rw [hu] at h; exact absurd h (by simp)
    | some uid =>
      rw [hu] at h
      dsimp only at h
      cases hopt : tst.options.find? (fun o =>
          o.id == tv.optionId && o.pollId == tv.pollId && !o.isDeleted) with
      | none => rw [hopt] at h; exact absurd h (by simp)
      | some o0 =>
        rw [hopt] at h
        dsimp only at h
        cases hp : tst.polls.find? (fun p => p.id == tv.pollId && !p.isDeleted) with
        | none => rw [hp] at h; exact absurd h (by simp)
        | some p0 =>
          rw [hp] at h
          dsimp only at h
          injection h with h'
          injection h' with hb hst
          subst hst
          rfl

/-- C6 witness: the amended theorem applied to user 2's vote for option 1
on the concrete two-option poll. -/
theorem C6_vote_relative_witness :
    voteSwitchAfterA.options = voteSwitchBase.options.map (fun o =>
      if o.id == 1 then { o with count := o.count + 1 } else o) :=
  (C6_vote_relative ⟨0, 0, 0, 0⟩ 0 Simple.DB.empty ⟨0, 1, some 2⟩ 1
    voteSwitchBase true voteSwitchAfterA (by decide)).2.2

/-- C6 counterexample: `Option.count` is not "never negative after any
operation" — the transactional `createPoll` stores the client-supplied
initial count `-5` verbatim. -/
theorem C6_negative_counterexample :
    (Tx.createPoll negCountPayload 0 Tx.DB.empty).map
      (fun r => r.2.options.map (fun o => o.count)) = some [-5] ∧
    ¬ (0 : Int) ≤ -5 := by
  decide

/-- C9: the transactional `deletePoll` leaves the `poll_tag_map` table
untouched, and `getAllTags` counts active mappings without looking at the
mapped poll's liveness: a tag all of whose active mappings point to
soft-deleted polls still gets a positive usage count. -/
theorem C9_delete_keeps_mappings
    (pid uid tuid now : Nat) (st : Tx.DB) (t : Tx.TagRow)
    (ht : t ∈ st.tags) (hact : t.isDeleted = false) (hu : t.userId = tuid)
    (hmaps : ∃ m ∈ st.tagMaps, m.tagId = t.id ∧ m.isDeleted = false)
    (_hdead : ∀ m ∈ st.tagMaps, m.tagId = t.id → m.isDeleted = false →
      ∀ p ∈ st.polls, p.id = m.pollId → p.isDeleted = true) :
    ((Tx.deletePoll pid uid now st).2.tagMaps = st.tagMaps) ∧
    ∃ e ∈ Tx.getAllTags tuid st, e.id = t.id ∧ 0 < e.count := by
  refine ⟨rfl, ?_⟩
  refine ⟨{ id := t.id, name := t.name, userId := t.userId
            count := (st.tagMaps.filter (fun m =>
              m.tagId == t.id && !m.isDeleted)).length }, ?_, rfl, ?_⟩
  · unfold Tx.getAllTags
    rw [List.mem_insertionSort]
    exact List.mem_map_of_mem _ (List.mem_filter.mpr ⟨ht, by simp [hu, hact]⟩)
  · obtain ⟨m, hm, hmt, hmd⟩ := hmaps
    have : m ∈ st.tagMaps.filter (fun m => m.tagId == t.id && !m.isDeleted) :=
      List.mem_filter.mpr ⟨hm, by simp [hmt, hmd]⟩
    calc 0 < 1 := Nat.one_pos
    _ ≤ _ := List.length_pos.mpr (List.ne_nil_of_mem this)

/-- C9 witness: the theorem applied to a state whose only poll is
soft-deleted while its tag's mapping is still active. -/
theorem C9_delete_keeps_mappings_witness :
    (Tx.deletePoll 0 1 9 deadPollSt).2.tagMaps = deadPollSt.tagMaps :=
  (C9_delete_keeps_mappings 0 1 1 9 deadPollSt
    { id := 1, name := "pets", userId := 1, createdAt := 0, updatedAt := 0
      isDeleted := false }
    (by decide) rfl rfl (by decide) (by decide)).1

/-- C10: `createPoll` stores each option's caller-supplied initial count.
The simple variant inserts the client value verbatim; the transactional
variant stores `if c = 0 then 0 else c` (the embedding of
`opt.count || 0`, which replaces only the falsy number 0), which on
integers also equals the client value, so nonzero — including negative —
initial counts are kept by both: a fresh poll's options need not start at
count 0. -/
theorem C10_create_keeps_client_counts
    (spoll : Simple.PollIn) (suid snow : Nat) (sst : Simple.DB)
    (tpoll : Tx.PollIn) (tuid tnow : Nat) (tst : Tx.DB)
    (h : tpoll.userId = some tuid) :
    (((Simple.createPoll spoll suid snow sst).2.options.drop
        sst.options.length).map (fun o => o.count) =
      spoll.pollOptions.map (fun o => o.count)) ∧
    ∃ r, Tx.createPoll tpoll tnow tst = some r ∧
      ((r.2.options.drop tst.options.length).map (fun o => o.count) =
        (tpoll.pollOptions.getD []).map
          (fun o => if o.count = 0 then 0 else o.count)) ∧
      ((r.2.options.drop tst.options.length).map (fun o => o.count) =
        (tpoll.pollOptions.getD []).map (fun o => o.count)) := by
  have hid : ∀ l : List Tx.OptionIn,
      l.map (fun o => if o.count = 0 then 0 else o.count) =
        l.map (fun o => o.count) := by
    intro l
    induction l with
    | nil => rfl
    | cons x xs ih =>
      simp only [List.map_cons, ih]
      congr 1
      split <;> omega
  constructor
  · rw [Simple.createPoll_options, List.drop_left, Simple.mkOptionRows_map_count_simple]
  · obtain ⟨stF, hc, hopts, -, -⟩ := Tx.createPoll_eq tpoll tuid tnow tst h
    refine ⟨(tst.nextId, stF), hc, ?_, ?_⟩
    · rw [hopts, List.drop_left, Tx.mkOptionRows_map_count]
    · rw [hopts, List.drop_left, Tx.mkOptionRows_map_count, hid]

/-- C10 witness: the theorem applied to a simple-variant payload whose
option count is `-7` and a transactional payload whose option count is
`-5`; the stored counts equal the supplied ones. -/
theorem C10_create_keeps_client_counts_witness :
    ((Simple.createPoll negCountPayloadS 1 0 Simple.DB.empty).2.options.drop
      0).map (fun o => o.count) =
      negCountPayloadS.pollOptions.map (fun o => o.count) :=
  (C10_create_keeps_client_counts negCountPayloadS 1 0 Simple.DB.empty
    negCountPayload 1 0 Tx.DB.empty rfl).1

/-- C8 (amended): the transactional `searchPollsByTag` is sound — every
returned poll is non-deleted and has an active mapping to the tag — and
returns each poll at most once (distinct ids); and whenever the pagination
window does not cut the result (offset 0 and at most `limit` matches),
every matching poll appears.  (The simple `searchPollsByTagNames` instead
emits one entry per matching tag row, so a poll can appear several
times.) -/
theorem C8_search_by_tag (tid lim off : Nat) (st : Tx.DB)
    (hn : Tx.PollIdsNodup st) :
    (∀ hp ∈ Tx.searchPollsByTag tid lim off st, ∃ p ∈ st.polls,
      hp.id = p.id ∧ p.isDeleted = false ∧ ∃ m ∈ st.tagMaps,
        m.pollId = p.id ∧ m.tagId = tid ∧ m.isDeleted = false) ∧
    ((Tx.searchPollsByTag tid lim off st).map (fun h => h.id)).Nodup ∧
    (off = 0 →
      (st.polls.filter (fun p => !p.isDeleted && st.tagMaps.any (fun m =>
        m.pollId == p.id && m.tagId == tid && !m.isDeleted))).length ≤ lim →
      ∀ p ∈ st.polls, p.isDeleted = false →
        (∃ m ∈ st.tagMaps, m.pollId = p.id ∧ m.tagId = tid ∧
          m.isDeleted = false) →
        p.id ∈ (Tx.searchPollsByTag tid lim off st).map (fun h => h.id)) := by
  classical
  set pred := fun p : Tx.PollRow => !p.isDeleted && st.tagMaps.any (fun m =>
    m.pollId == p.id && m.tagId == tid && !m.isDeleted) with hpred
  set matching := st.polls.filter pred with hmatching
  set sorted := List.insertionSort
    (fun a b : Tx.PollRow => b.createdAt ≤ a.createdAt) matching with hsorted
  have hres : Tx.searchPollsByTag tid lim off st =
      ((sorted.drop off).take lim).map (fun p => Tx.hydratePoll p st) := rfl
  refine ⟨?_, ?_, ?_⟩
  · intro hp hmem
    rw [hres] at hmem
    obtain ⟨p, hpmem, rfl⟩ := List.mem_map.mp hmem
    have hp2 : p ∈ sorted := List.mem_of_mem_drop (List.mem_of_mem_take hpmem)
    have hp3 : p ∈ matching := (List.mem_insertionSort _).mp hp2
    obtain ⟨hp4, hp5⟩ := List.mem_filter.mp hp3
    refine ⟨p, hp4, rfl, ?_⟩
    have hp6 : p.isDeleted = false ∧ ∃ x ∈ st.tagMaps,
        (x.pollId = p.id ∧ x.tagId = tid) ∧ x.isDeleted = false := by
      simpa [hpred] using hp5
    obtain ⟨hdel0, m, hm, ⟨hm1, hm2⟩, hm3⟩ := hp6
    exact ⟨hdel0, m, hm, hm1, hm2, hm3⟩
  · rw [hres]
    rw [List.map_map]
    have hcomp : ((fun h : Tx.PollView => h.id) ∘
        (fun p => Tx.hydratePoll p st)) = fun p : Tx.PollRow => p.id := rfl
    rw [hcomp]
    have h1 : (matching.map (fun p => p.id)).Nodup :=
      hn.sublist ((st.polls.filter_sublist).map (fun p => p.id))
    have h2 : (sorted.map (fun p => p.id)).Nodup :=
      (((List.perm_insertionSort _ matching).map (fun p => p.id)).nodup_iff).mpr h1
    exact h2.sublist ((((sorted.drop off).take_sublist lim).trans
      (sorted.drop_sublist off)).map (fun p => p.id))
  · intro hoff hlen p hpmem hdel hex
    subst hoff
    have hplen : sorted.length = matching.length :=
      (List.perm_insertionSort _ matching).length_eq
    rw [hres]
    have htake : (sorted.drop 0).take lim = sorted := by
      rw [List.drop_zero]
      exact List.take_of_length_le (by rw [hplen]; exact hlen)
    rw [htake, List.map_map]
    have hcomp : ((fun h : Tx.PollView => h.id) ∘
        (fun p => Tx.hydratePoll p st)) = fun p : Tx.PollRow => p.id := rfl
    rw [hcomp]
    have hpm : p ∈ matching := by
      rw [hmatching]
      refine List.mem_filter.mpr ⟨hpmem, ?_⟩
      simp only [hpred]
      simp only [Bool.and_eq_true, Bool.not_eq_true', List.any_eq_true]
      refine ⟨hdel, ?_⟩
      obtain ⟨m, hm, h1, h2, h3⟩ := hex
      exact ⟨m, hm, by simp [h1, h2, h3]⟩
    exact List.mem_map_of_mem _ ((List.mem_insertionSort _).mpr hpm)

/-- C8 witness: the theorem applied to the one-poll one-tag state, where
the search result for the poll's tag has pairwise distinct poll ids. -/
theorem C8_search_by_tag_witness :
    ((Tx.searchPollsByTag 2 10 0 cascadeDemoSt).map (fun h => h.id)).Nodup :=
  (C8_search_by_tag 2 10 0 cascadeDemoSt
    (show Tx.PollIdsNodup cascadeDemoSt by
      unfold Tx.PollIdsNodup; decide)).2.1

/-- C8 counterexample: the simple `searchPollsByTagNames` emits one entry
per matching tag row, so the poll tagged with both "x" and "y" appears
twice when searching for `["x", "y"]` — "each matching poll appears
exactly once" is false on the code. -/
theorem C8_search_by_tag_counterexample :
    (Simple.searchPollsByTagNames 1 ["x", "y"] twoTagSt).map
      (fun h => h.pollId) = [0, 0] := by
  decide

namespace Tx

theorem findOrResurrectTag_found (n : String) (uid now : Nat) (st : DB) :
    (findOrResurrectTag n uid now st).1.name = n ∧
    (findOrResurrectTag n uid now st).1.userId = uid ∧
    (findOrResurrectTag n uid now st).1.isDeleted = false := by
  unfold findOrResurrectTag
  cases h : st.tags.find? (fun t => t.name == n && t.userId == uid) with
  | none => simp
  | some t =>
    have hp := List.find?_some h
    simp only [Bool.and_eq_true, beq_iff_eq] at hp
    by_cases hd : t.isDeleted
    · simp [hd, hp.1, hp.2]
    · simp [hd, hp.1, hp.2]

theorem findOrResurrectTag_cases (n : String) (uid now : Nat) (st : DB) :
    (∃ t0, st.tags.find? (fun t => t.name == n && t.userId == uid) = some t0 ∧
      t0.isDeleted = false ∧
      (findOrResurrectTag n uid now st).1 = t0 ∧
      (findOrResurrectTag n uid now st).2 = st) ∨
    (∃ t0, st.tags.find? (fun t => t.name == n && t.userId == uid) = some t0 ∧
      t0.isDeleted = true ∧
      (findOrResurrectTag n uid now st).1 =
        { t0 with isDeleted := false, updatedAt := now } ∧
      (findOrResurrectTag n uid now st).2 =
        { st with tags := st.tags.map (fun x =>
            if x.id == t0.id then
              { x with isDeleted := false, updatedAt := now }
            else x) }) ∨
    (st.tags.find? (fun t => t.name == n && t.userId == uid) = none ∧
      (findOrResurrectTag n uid now st).1 =
        { id := st.nextId, name := n, userId := uid, createdAt := now
          updatedAt := now, isDeleted := false } ∧
      (findOrResurrectTag n uid now st).2 =
        { st with
          nextId := st.nextId + 1
          tags := st.tags ++
            [{ id := st.nextId, name := n, userId := uid, createdAt := now
               updatedAt := now, isDeleted := false }] }) := by
  unfold findOrResurrectTag
  cases h : st.tags.find? (fun t => t.name == n && t.userId == uid) with
  | none => right; right; exact ⟨rfl, rfl, rfl⟩
  | some t =>
    by_cases hd : t.isDeleted
    · right; left
      exact ⟨t, rfl, hd, by simp [hd], by simp [hd]⟩
    · left
      exact ⟨t, rfl, by simpa using hd, by simp [hd], by simp [hd]⟩

theorem findOrResurrectTag_tagMaps (n : String) (uid now : Nat) (st : DB) :
    (findOrResurrectTag n uid now st).2.tagMaps = st.tagMaps := by
  unfold findOrResurrectTag
  cases h : st.tags.find? (fun t => t.name == n && t.userId == uid) with
  | none => simp only [h]
  | some t => simp only [h]; split <;> rfl

theorem findOrResurrectTag_persists_id_name (n : String) (uid now : Nat)
    (st : DB) (i : Nat) (y : String) (u : Nat)
    (h : ∃ t ∈ st.tags, t.id = i ∧ t.name = y ∧ t.userId = u) :
    ∃ t ∈ (findOrResurrectTag n uid now st).2.tags,
      t.id = i ∧ t.name = y ∧ t.userId = u := by
  obtain ⟨t, ht, h1, h2, h3⟩ := h
  rcases findOrResurrectTag_cases n uid now st with
    ⟨t0, -, -, -, hst⟩ | ⟨t0, -, -, -, hst⟩ | ⟨-, -, hst⟩
  · rw [hst]; exact ⟨t, ht, h1, h2, h3⟩
  · rw [hst]
    refine ⟨_, List.mem_map_of_mem _ ht, ?_⟩
    by_cases hc : (t.id == t0.id) = true
    · rw [if_pos hc]; exact ⟨h1, h2, h3⟩
    · rw [if_neg hc]; exact ⟨h1, h2, h3⟩
  · rw [hst]
    exact ⟨t, List.mem_append_left _ ht, h1, h2, h3⟩

theorem findOrResurrectTag_persists_active (n : String) (uid now : Nat)
    (st : DB) (i : Nat)
    (h : ∃ t ∈ st.tags, t.id = i ∧ t.isDeleted = false) :
    ∃ t ∈ (findOrResurrectTag n uid now st).2.tags,
      t.id = i ∧ t.isDeleted = false := by
  obtain ⟨t, ht, h1, h2⟩ := h
  rcases findOrResurrectTag_cases n uid now st with
    ⟨t0, -, -, -, hst⟩ | ⟨t0, -, -, -, hst⟩ | ⟨-, -, hst⟩
  · rw [hst]; exact ⟨t, ht, h1, h2⟩
  · rw [hst]
    refine ⟨_, List.mem_map_of_mem _ ht, ?_⟩
    by_cases hc : (t.id == t0.id) = true
    · rw [if_pos hc]; exact ⟨h1, rfl⟩
    · rw [if_neg hc]; exact ⟨h1, h2⟩
  · rw [hst]
    exact ⟨t, List.mem_append_left _ ht, h1, h2⟩

theorem attachTag_persists_active (pid uid now : Nat) (st : DB) (n : String)
    (i : Nat) (h : ∃ t ∈ st.tags, t.id = i ∧ t.isDeleted = false) :
    ∃ t ∈ (attachTag pid uid now st n).tags,
      t.id = i ∧ t.isDeleted = false := by
  unfold attachTag
  rw [upsertTagMap_tags]
  exact findOrResurrectTag_persists_active n uid now st i h

theorem foldl_attachTag_persists_active (pid uid now : Nat)
    (names : List String) :
    ∀ (s : DB) (i : Nat),
      (∃ t ∈ s.tags, t.id = i ∧ t.isDeleted = false) →
      ∃ t ∈ (names.foldl (fun acc n => attachTag pid uid now acc n) s).tags,
        t.id = i ∧ t.isDeleted = false := by
  induction names with
  | nil => intro s i h; exact h
  | cons n rest ih =>
    intro s i h
    simp only [List.foldl_cons]
    exact ih _ i (attachTag_persists_active pid uid now s n i h)

end Tx

namespace Tx

theorem upsertTagMap_insert (pid tid uid now : Nat) (st : DB)
    (h : ∀ m ∈ st.tagMaps, ¬(m.pollId = pid ∧ m.tagId = tid ∧ m.userId = uid)) :
    upsertTagMap pid tid uid now st =
      { st with
        nextId := st.nextId + 1
        tagMaps := st.tagMaps ++
          [{ id := st.nextId, pollId := pid, tagId := tid, userId := uid
             createdAt := now, updatedAt := now, isDeleted := false }] } := by
  unfold upsertTagMap
  have hany : (st.tagMaps.any (fun m =>
      m.pollId == pid && m.tagId == tid && m.userId == uid)) = false := by
    rw [List.any_eq_false]
    intro m hm
    have := h m hm
    simp only [Bool.and_eq_true, beq_iff_eq]
    tauto
  rw [if_neg (by simp [hany])]

theorem attachTag_eq (pid uid now : Nat) (st : DB) (n : String) :
    attachTag pid uid now st n =
      upsertTagMap pid (findOrResurrectTag n uid now st).1.id uid now
        (findOrResurrectTag n uid now st).2 := rfl

theorem attach_step (pid uid now : Nat) (n : String) (s : DB)
    (h1 : ∀ t ∈ s.tags, t.id < s.nextId)
    (h2 : ∀ m ∈ s.tagMaps, m.tagId < s.nextId)
    (h3 : (s.tags.map (fun t => t.id)).Nodup)
    (h4 : ∀ m ∈ s.tagMaps, m.pollId = pid → m.userId = uid →
      ∃ t ∈ s.tags, t.id = m.tagId ∧ t.name ≠ n) :
    ∃ (tid mid : Nat),
      (attachTag pid uid now s n).tagMaps = s.tagMaps ++
        [{ id := mid, pollId := pid, tagId := tid, userId := uid
           createdAt := now, updatedAt := now, isDeleted := false }] ∧
      (∃ t ∈ (attachTag pid uid now s n).tags,
        t.id = tid ∧ t.name = n ∧ t.isDeleted = false) ∧
      (∀ t ∈ (attachTag pid uid now s n).tags,
        t.id < (attachTag pid uid now s n).nextId) ∧
      (∀ m ∈ (attachTag pid uid now s n).tagMaps,
        m.tagId < (attachTag pid uid now s n).nextId) ∧
      (((attachTag pid uid now s n).tags.map (fun t => t.id)).Nodup) ∧
      s.nextId ≤ (attachTag pid uid now s n).nextId ∧
      (∀ (i u : Nat) (y : String),
        (∃ t ∈ s.tags, t.id = i ∧ t.name = y ∧ t.userId = u) →
        ∃ t ∈ (attachTag pid uid now s n).tags,
          t.id = i ∧ t.name = y ∧ t.userId = u) := by
  rw [attachTag_eq]
  rcases findOrResurrectTag_cases n uid now s with
    ⟨t0, hf, hdel, hr1, hr2⟩ | ⟨t0, hf, hdel, hr1, hr2⟩ | ⟨hf, hr1, hr2⟩
  · -- found active: state unchanged by the find phase
    have ht0mem : t0 ∈ s.tags := List.mem_of_find?_eq_some hf
    have ht0p := List.find?_some hf
    simp only [Bool.and_eq_true, beq_iff_eq] at ht0p
    have hnov : ∀ m ∈ s.tagMaps,
        ¬(m.pollId = pid ∧ m.tagId = t0.id ∧ m.userId = uid) := by
      rintro m hm ⟨hmp, hmt, hmu⟩
      obtain ⟨t, htm, hti, htn⟩ := h4 m hm hmp hmu
      have : t = t0 := List.inj_on_of_nodup_map h3 htm ht0mem (by
        rw [hti, hmt])
      exact htn (this ▸ ht0p.1)
    rw [hr1, hr2, upsertTagMap_insert pid t0.id uid now s hnov]
    refine ⟨t0.id, s.nextId, rfl, ⟨t0, ht0mem, rfl, ht0p.1, hdel⟩, ?_, ?_, h3,
      Nat.le_succ _, ?_⟩
    · intro t ht
      exact Nat.lt_succ_of_lt (h1 t ht)
    · intro m hm
      rcases List.mem_append.mp hm with hm | hm
      · exact Nat.lt_succ_of_lt (h2 m hm)
      · simp only [List.mem_singleton] at hm
        subst hm
        exact Nat.lt_succ_of_lt (h1 t0 ht0mem)
    · intro i u y hy
      exact hy
  · -- found soft-deleted: the row is resurrected in place
    have ht0mem : t0 ∈ s.tags := List.mem_of_find?_eq_some hf
    have ht0p := List.find?_some hf
    simp only [Bool.and_eq_true, beq_iff_eq] at ht0p
    have hnov : ∀ m ∈ s.tagMaps,
        ¬(m.pollId = pid ∧ m.tagId = t0.id ∧ m.userId = uid) := by
      rintro m hm ⟨hmp, hmt, hmu⟩
      obtain ⟨t, htm, hti, htn⟩ := h4 m hm hmp hmu
      have : t = t0 := List.inj_on_of_nodup_map h3 htm ht0mem (by
        rw [hti, hmt])
      exact htn (this ▸ ht0p.1)
    have hid : ∀ x : TagRow,
        ((if x.id == t0.id then
          { x with isDeleted := false, updatedAt := now } else x) : TagRow).id =
          x.id := by
      intro x
      by_cases hc : (x.id == t0.id) = true
      · rw [if_pos hc]
      · rw [if_neg hc]
    have hup := upsertTagMap_insert pid t0.id uid now
      ((findOrResurrectTag n uid now s).2)
      (by rw [findOrResurrectTag_tagMaps]; exact hnov)
    have htags2 : (findOrResurrectTag n uid now s).2.tags =
        s.tags.map (fun x =>
          if x.id == t0.id then { x with isDeleted := false, updatedAt := now }
          else x) := by rw [hr2]
    have hnext2 : (findOrResurrectTag n uid now s).2.nextId = s.nextId := by
      rw [hr2]
    rw [hr1]
    dsimp only
    rw [hup]
    dsimp only
    rw [htags2, hnext2, findOrResurrectTag_tagMaps]
    have hmapid : ((s.tags.map (fun x =>
        if x.id == t0.id then { x with isDeleted := false, updatedAt := now }
        else x)).map (fun t => t.id)) = s.tags.map (fun t => t.id) := by
      rw [List.map_map]
      exact List.map_congr_left (fun x _ => hid x)
    refine ⟨t0.id, s.nextId, rfl, ?_, ?_, ?_, ?_, Nat.le_succ _, ?_⟩
    · refine ⟨_, List.mem_map_of_mem _ ht0mem, ?_⟩
      rw [if_pos (by simp)]
      exact ⟨rfl, ht0p.1, rfl⟩
    · intro t ht
      obtain ⟨x, hx, rfl⟩ := List.mem_map.mp ht
      rw [hid x]
      exact Nat.lt_succ_of_lt (h1 x hx)
    · intro m hm
      rcases List.mem_append.mp hm with hm | hm
      · exact Nat.lt_succ_of_lt (h2 m hm)
      · simp only [List.mem_singleton] at hm
        subst hm
        exact Nat.lt_succ_of_lt (h1 t0 ht0mem)
    · rw [hmapid]; exact h3
    · intro i u y hy
      obtain ⟨t, htm, hti, htn, htu⟩ := hy
      refine ⟨_, List.mem_map_of_mem _ htm, ?_⟩
      by_cases hc : (t.id == t0.id) = true
      · rw [if_pos hc]; exact ⟨hti, htn, htu⟩
      · rw [if_neg hc]; exact ⟨hti, htn, htu⟩
  · -- not found: a fresh tag row is appended
    have hnov : ∀ m ∈ s.tagMaps,
        ¬(m.pollId = pid ∧ m.tagId = s.nextId ∧ m.userId = uid) := by
      rintro m hm ⟨-, hmt, -⟩
      exact absurd hmt (Nat.ne_of_lt (h2 m hm))
    have hup := upsertTagMap_insert pid s.nextId uid now
      ((findOrResurrectTag n uid now s).2)
      (by rw [findOrResurrectTag_tagMaps]; exact hnov)
    have htags2 : (findOrResurrectTag n uid now s).2.tags =
        s.tags ++
          [{ id := s.nextId, name := n, userId := uid, createdAt := now
             updatedAt := now, isDeleted := false }] := by rw [hr2]
    have hnext2 : (findOrResurrectTag n uid now s).2.nextId = s.nextId + 1 := by
      rw [hr2]
    rw [hr1]
    dsimp only
    rw [hup]
    dsimp only
    rw [htags2, hnext2, findOrResurrectTag_tagMaps]
    refine ⟨s.nextId, s.nextId + 1, rfl, ?_, ?_, ?_, ?_, by omega, ?_⟩
    · exact ⟨_, List.mem_append_right _ (List.mem_singleton_self _),
        rfl, rfl, rfl⟩
    · intro t ht
      rcases List.mem_append.mp ht with ht | ht
      · have := h1 t ht; omega
      · simp only [List.mem_singleton] at ht
        subst ht
        show s.nextId < s.nextId + 1 + 1
        omega
    · intro m hm
      rcases List.mem_append.mp hm with hm | hm
      · have := h2 m hm; omega
      · simp only [List.mem_singleton] at hm
        subst hm
        show s.nextId < s.nextId + 1 + 1
        omega
    · rw [List.map_append]
      rw [List.nodup_append]
      refine ⟨h3, List.nodup_singleton _, ?_⟩
      intro x hx
      simp only [List.mem_map] at hx
      obtain ⟨t, ht, rfl⟩ := hx
      simp only [List.map_cons, List.map_nil, List.mem_singleton]
      exact Nat.ne_of_lt (h1 t ht)
    · intro i u y hy
      obtain ⟨t, htm, hti, htn, htu⟩ := hy
      exact ⟨t, List.mem_append_left _ htm, hti, htn, htu⟩

end Tx

namespace Tx

theorem attach_fold_fresh (pid uid now : Nat) (names : List String) :
    ∀ (s : DB),
      names.Nodup →
      (∀ t ∈ s.tags, t.id < s.nextId) →
      (∀ m ∈ s.tagMaps, m.tagId < s.nextId) →
      ((s.tags.map (fun t => t.id)).Nodup) →
      (∀ m ∈ s.tagMaps, m.pollId = pid → m.userId = uid →
        ∃ t ∈ s.tags, t.id = m.tagId ∧ ¬ (t.name ∈ names)) →
      ∃ newMaps : List TagMapRow,
        (names.foldl (fun acc n => attachTag pid uid now acc n) s).tagMaps =
          s.tagMaps ++ newMaps ∧
        newMaps.length = names.length ∧
        (∀ m ∈ newMaps, m.pollId = pid ∧ m.userId = uid ∧
          m.isDeleted = false ∧
          ∃ t ∈ (names.foldl (fun acc n => attachTag pid uid now acc n) s).tags,
            t.id = m.tagId ∧ t.isDeleted = false) ∧
        (∀ t ∈ (names.foldl (fun acc n => attachTag pid uid now acc n) s).tags,
          t.id < (names.foldl (fun acc n => attachTag pid uid now acc n) s).nextId) ∧
        (((names.foldl (fun acc n => attachTag pid uid now acc n) s).tags.map
          (fun t => t.id)).Nodup) := by
  induction names with
  | nil =>
    intro s _ h1 _ h3 _
    exact ⟨[], by simp, rfl, by simp, h1, h3⟩
  | cons n rest ih =>
    intro s hnd h1 h2 h3 h4
    simp only [List.foldl_cons]
    obtain ⟨hn_rest, hndrest⟩ :
        ¬ n ∈ rest ∧ rest.Nodup := List.nodup_cons.mp hnd
    obtain ⟨tid, mid, hm1, hm2, hm3, hm4, hm5, hm6, hm7⟩ :=
      attach_step pid uid now n s h1 h2 h3 (fun m hm hp hu => by
        obtain ⟨t, ht, h5, h6⟩ := h4 m hm hp hu
        exact ⟨t, ht, h5, fun hne =>
          h6 (by rw [hne]; exact List.mem_cons_self _ _)⟩)
    have h4' : ∀ m ∈ (attachTag pid uid now s n).tagMaps,
        m.pollId = pid → m.userId = uid →
        ∃ t ∈ (attachTag pid uid now s n).tags,
          t.id = m.tagId ∧ ¬ (t.name ∈ rest) := by
      intro m hm hp hu
      rw [hm1] at hm
      rcases List.mem_append.mp hm with hm | hm
      · obtain ⟨t, ht, h5, h6⟩ := h4 m hm hp hu
        obtain ⟨t', ht', h7, h8, -⟩ :=
          hm7 t.id t.userId t.name ⟨t, ht, rfl, rfl, rfl⟩
        exact ⟨t', ht', by rw [h7, h5], fun hin =>
          h6 (by rw [h8] at hin; exact List.mem_cons_of_mem _ hin)⟩
      · simp only [List.mem_singleton] at hm
        subst hm
        obtain ⟨t, ht, h7, h8, -⟩ := hm2
        exact ⟨t, ht, h7, by rw [h8]; exact hn_rest⟩
    obtain ⟨maps', e1, e2, e3, e4, e5⟩ :=
      ih (attachTag pid uid now s n) hndrest hm3 hm4 hm5 h4'
    refine ⟨{ id := mid, pollId := pid, tagId := tid, userId := uid
              createdAt := now, updatedAt := now, isDeleted := false } ::
            maps', ?_, ?_, ?_, e4, e5⟩
    · rw [e1, hm1, List.append_assoc]
      rfl
    · simp [e2]
    · intro m hm
      rcases List.mem_cons.mp hm with hm | hm
      · subst hm
        refine ⟨rfl, rfl, rfl, ?_⟩
        obtain ⟨t, ht, h7, -, h9⟩ := hm2
        exact foldl_attachTag_persists_active pid uid now rest _ tid
          ⟨t, ht, h7, h9⟩
      · exact e3 m hm
end Tx

namespace Simple

theorem insertTagRow_foldl (pid uid now : Nat) (names : List String) :
    ∀ s : DB,
      names.foldl (insertTagRow pid uid now) s =
        { s with
          nextId := s.nextId + names.length
          tags := s.tags ++ mkTagRows pid uid now s.nextId names } := by
  induction names with
  | nil => intro s; simp [mkTagRows]
  | cons n rest ih =>
    intro s
    simp only [List.foldl_cons, mkTagRows, List.length_cons]
    rw [ih]
    simp only [insertTagRow]
    congr 1
    · omega
    · simp

theorem createPoll_tags (poll : PollIn) (uid now : Nat) (st : DB) :
    (createPoll poll uid now st).2.tags =
      st.tags ++ mkTagRows st.nextId uid now
        (st.nextId + 1 + poll.pollOptions.length)
        (poll.tags.map (fun t => t.name)) := by
  unfold createPoll
  dsimp only
  rw [← List.foldl_map (fun tg : TagIn => tg.name) (insertTagRow st.nextId uid now)]
  rw [insertOptionRow_foldl_simple, insertTagRow_foldl]

theorem mkOptionRows_length_simple (pid now : Nat) (opts : List OptionIn) :
    ∀ k, (mkOptionRows pid now k opts).length = opts.length := by
  induction opts with
  | nil => intro k; rfl
  | cons o rest ih => intro k; simp [mkOptionRows, ih]

theorem mkTagRows_length (pid uid now : Nat) (names : List String) :
    ∀ k, (mkTagRows pid uid now k names).length = names.length := by
  induction names with
  | nil => intro k; rfl
  | cons n rest ih => intro k; simp [mkTagRows, ih]

theorem mkOptionRows_mem_simple (pid now : Nat) (opts : List OptionIn) :
    ∀ k, ∀ r ∈ mkOptionRows pid now k opts,
      r.pollId = pid ∧ r.isDeleted = false := by
  induction opts with
  | nil => intro k r hr; cases hr
  | cons o rest ih =>
    intro k r hr
    rcases List.mem_cons.mp hr with hr | hr
    · subst hr; exact ⟨rfl, rfl⟩
    · exact ih (k + 1) r hr

theorem mkTagRows_mem (pid uid now : Nat) (names : List String) :
    ∀ k, ∀ r ∈ mkTagRows pid uid now k names,
      r.pollId = pid ∧ r.userId = uid ∧ r.isDeleted = false := by
  induction names with
  | nil => intro k r hr; cases hr
  | cons n rest ih =>
    intro k r hr
    rcases List.mem_cons.mp hr with hr | hr
    · subst hr; exact ⟨rfl, rfl, rfl⟩
    · exact ih (k + 1) r hr

theorem mkOptionRows_index_mem (pid now : Nat) (opts : List OptionIn) :
    ∀ k, ∀ r ∈ mkOptionRows pid now k opts, ∃ o ∈ opts, r.index = o.index := by
  induction opts with
  | nil => intro k r hr; cases hr
  | cons o rest ih =>
    intro k r hr
    rcases List.mem_cons.mp hr with hr | hr
    · subst hr; exact ⟨o, List.mem_cons_self _ _, rfl⟩
    · obtain ⟨o', ho', he⟩ := ih (k + 1) r hr
      exact ⟨o', List.mem_cons_of_mem _ ho', he⟩

theorem mkOptionRows_pairwise (pid now : Nat) (opts : List OptionIn)
    (h : opts.Pairwise (fun a b => a.index ≤ b.index)) :
    ∀ k, (mkOptionRows pid now k opts).Pairwise
      (fun a b : OptionRow => a.index ≤ b.index) := by
  induction opts with
  | nil => intro k; exact List.Pairwise.nil
  | cons o rest ih =>
    intro k
    obtain ⟨h1, h2⟩ := List.pairwise_cons.mp h
    refine List.pairwise_cons.mpr ⟨?_, ih h2 (k + 1)⟩
    intro r hr
    obtain ⟨o', ho', he⟩ := mkOptionRows_index_mem pid now rest (k + 1) r hr
    rw [he]
    exact h1 o' ho'

end Simple

namespace Tx

theorem mkOptionRows_length (pid now : Nat) (opts : List OptionIn) :
    ∀ k, (mkOptionRows pid now k opts).length = opts.length := by
  induction opts with
  | nil => intro k; rfl
  | cons o rest ih => intro k; simp [mkOptionRows, ih]

theorem mkOptionRows_mem (pid now : Nat) (opts : List OptionIn) :
    ∀ k, ∀ r ∈ mkOptionRows pid now k opts,
      r.pollId = pid ∧ r.isDeleted = false := by
  induction opts with
  | nil => intro k r hr; cases hr
  | cons o rest ih =>
    intro k r hr
    rcases List.mem_cons.mp hr with hr | hr
    · subst hr; exact ⟨rfl, rfl⟩
    · exact ih (k + 1) r hr

theorem find_tag_by_id (l : List TagRow)
    (hnd : (l.map (fun t => t.id)).Nodup) :
    ∀ t ∈ l, l.find? (fun x => x.id == t.id) = some t := by
  induction l with
  | nil => intro t ht; cases ht
  | cons a rest ih =>
    intro t ht
    rw [List.map_cons, List.nodup_cons] at hnd
    rcases List.mem_cons.mp ht with rfl | ht
    · rw [List.find?_cons_of_pos _ (by simp)]
    · rw [List.find?_cons_of_neg, ih hnd.2 t ht]
      simp only [beq_iff_eq]
      intro he
      exact hnd.1 (he ▸ List.mem_map_of_mem (fun t => t.id) ht)

end Tx

theorem filterMap_length_all_some {α β : Type} (f : α → Option β) :
    ∀ l : List α, (∀ a ∈ l, ∃ b, f a = some b) →
      (l.filterMap f).length = l.length := by
  intro l
  induction l with
  | nil => intro _; rfl
  | cons a rest ih =>
    intro h
    obtain ⟨b, hb⟩ := h a (List.mem_cons_self _ _)
    rw [List.filterMap_cons, hb]
    simp only [List.length_cons]
    rw [ih (fun x hx => h x (List.mem_cons_of_mem _ hx))]

theorem createPoll_get_counts_tx
    (tpoll : Tx.PollIn) (tuid tnow : Nat) (tst : Tx.DB)
    (h : tpoll.userId = some tuid)
    (htx : Tx.IdsFresh tst) (htn : Tx.TagIdsNodup tst)
    (hnames : (((tpoll.tags.getD []).map (fun t => t.name))).Nodup) :
    ∃ stF, Tx.createPoll tpoll tnow tst = some (tst.nextId, stF) ∧
      ∃ view, Tx.getPollById tst.nextId stF = some view ∧
        view.options.length = (tpoll.pollOptions.getD []).length ∧
        view.tags.length = (tpoll.tags.getD []).length := by
  obtain ⟨hfp, hfo, hft, hfm, hfv⟩ := htx
  unfold Tx.createPoll
  rw [h]
  dsimp only
  rw [Tx.insertOptionRow_foldl]
  rw [← List.foldl_map (fun tg : Tx.TagIn => tg.name)
    (fun s n => Tx.attachTag tst.nextId tuid tnow s n)]
  dsimp only
  set names := (tpoll.tags.getD []).map (fun t => t.name) with hnamesdef
  set pid := tst.nextId with hpid
  set newPollRow : Tx.PollRow :=
    { id := pid, question := tpoll.question, extraInfo := tpoll.extraInfo
      userId := tuid, createdAt := tnow, updatedAt := tnow
      isDeleted := false } with hnewPollRow
  set st2 : Tx.DB :=
    { nextId := tst.nextId + 1 + (tpoll.pollOptions.getD []).length
      polls := tst.polls ++ [newPollRow]
      options := tst.options ++
        Tx.mkOptionRows pid tnow (tst.nextId + 1) (tpoll.pollOptions.getD [])
      votes := tst.votes
      tags := tst.tags
      tagMaps := tst.tagMaps } with hst2
  obtain ⟨newMaps, e1, e2, e3, e4, e5⟩ :=
    Tx.attach_fold_fresh pid tuid tnow names st2 hnames
      (fun t ht => by
        have := hft t ht
        simp only [hst2]
        omega)
      (fun m hm => by
        have := (hfm m hm).2.2
        simp only [hst2]
        omega)
      htn
      (fun m hm hp _ => by
        have := (hfm m hm).2.1
        rw [hp] at this
        simp only [hpid] at this
        omega)
  refine ⟨_, rfl, ?_⟩
  set F := names.foldl (fun acc n => Tx.attachTag pid tuid tnow acc n) st2 with hF
  have hFpolls : F.polls = tst.polls ++ [newPollRow] :=
    Tx.foldl_attachTag_polls pid tuid tnow names st2
  have hFopts : F.options = tst.options ++
      Tx.mkOptionRows pid tnow (tst.nextId + 1) (tpoll.pollOptions.getD []) :=
    Tx.foldl_attachTag_options pid tuid tnow names st2
  have hfindp : F.polls.find? (fun p => p.id == pid && !p.isDeleted) =
      some newPollRow := by
    rw [hFpolls, List.find?_append]
    have hn1 : tst.polls.find? (fun p => p.id == pid && !p.isDeleted) = none := by
      rw [List.find?_eq_none]
      intro p hp
      have := hfp p hp
      simp only [Bool.and_eq_true, beq_iff_eq, not_and]
      intro hpe
      exact absurd hpe (Nat.ne_of_lt this)
    rw [hn1]
    simp
  unfold Tx.getPollById
  rw [hfindp]
  refine ⟨_, rfl, ?_, ?_⟩
  · unfold Tx.hydratePoll
    dsimp only
    rw [hFopts, List.filter_append]
    have hn1 : tst.options.filter (fun o =>
        o.pollId == newPollRow.id && !o.isDeleted) = [] := by
      rw [List.filter_eq_nil_iff]
      intro o ho
      have := (hfo o ho).2
      simp only [Bool.and_eq_true, beq_iff_eq, not_and]
      intro hpe
      exact absurd hpe (Nat.ne_of_lt this)
    have hn2 : (Tx.mkOptionRows pid tnow (tst.nextId + 1)
        (tpoll.pollOptions.getD [])).filter (fun o =>
        o.pollId == newPollRow.id && !o.isDeleted) =
        Tx.mkOptionRows pid tnow (tst.nextId + 1) (tpoll.pollOptions.getD []) := by
      rw [List.filter_eq_self]
      intro r hr
      obtain ⟨hr1, hr2⟩ := Tx.mkOptionRows_mem pid tnow _ _ r hr
      simp [hr1, hr2, hnewPollRow]
    rw [hn1, hn2, List.nil_append, List.length_insertionSort,
      Tx.mkOptionRows_length]
  · unfold Tx.hydratePoll
    dsimp only
    rw [e1]
    have hst2maps : st2.tagMaps = tst.tagMaps := rfl
    rw [hst2maps, List.filter_append]
    have hn1 : tst.tagMaps.filter (fun m =>
        m.pollId == newPollRow.id && !m.isDeleted) = [] := by
      rw [List.filter_eq_nil_iff]
      intro m hm
      have := (hfm m hm).2.1
      simp only [Bool.and_eq_true, beq_iff_eq, not_and]
      intro hpe
      exact absurd hpe (Nat.ne_of_lt this)
    have hn2 : newMaps.filter (fun m =>
        m.pollId == newPollRow.id && !m.isDeleted) = newMaps := by
      rw [List.filter_eq_self]
      intro m hm
      obtain ⟨hm1, -, hm3, -⟩ := e3 m hm
      simp [hm1, hm3, hnewPollRow]
    rw [hn1, hn2, List.nil_append]
    rw [filterMap_length_all_some]
    · rw [e2, hnamesdef, List.length_map]
    · intro m hm
      obtain ⟨-, -, -, t, htm, hti, htd⟩ := e3 m hm
      refine ⟨t, ?_⟩
      rw [← hti, Tx.find_tag_by_id F.tags e5 t htm]
      simp [htd]

/-- C7 (amended): a poll created with N options and M distinct tag names
is read back with exactly N active options and M active tags in both
variants.  In the simple variant `getOptionsByPollId` orders the options
by `index` ascending — which equals the caller-supplied order exactly when
the caller supplied ascending indexes — and `getPollTags` returns the M
tag rows; in the transactional variant `getPollById` returns N options
and M tags (ordered by `createdAt` descending, not by option key). -/
theorem C7_create_then_get
    (spoll : Simple.PollIn) (suid snow : Nat) (sst : Simple.DB)
    (tpoll : Tx.PollIn) (tuid tnow : Nat) (tst : Tx.DB)
    (hsf : Simple.IdsFresh sst)
    (h : tpoll.userId = some tuid)
    (htx : Tx.IdsFresh tst) (htn : Tx.TagIdsNodup tst)
    (hnames : (((tpoll.tags.getD []).map (fun t => t.name))).Nodup) :
    ((Simple.getOptionsByPollId sst.nextId
        (Simple.createPoll spoll suid snow sst).2).length =
      spoll.pollOptions.length) ∧
    ((Simple.getOptionsByPollId sst.nextId
        (Simple.createPoll spoll suid snow sst).2).Sorted
      (fun a b => a.index ≤ b.index)) ∧
    (spoll.pollOptions.Pairwise (fun a b => a.index ≤ b.index) →
      Simple.getOptionsByPollId sst.nextId
        (Simple.createPoll spoll suid snow sst).2 =
        Simple.mkOptionRows sst.nextId snow (sst.nextId + 1)
          spoll.pollOptions) ∧
    ((Simple.getPollTags sst.nextId suid
        (Simple.createPoll spoll suid snow sst).2).length =
      spoll.tags.length) ∧
    (∃ stF, Tx.createPoll tpoll tnow tst = some (tst.nextId, stF) ∧
      ∃ view, Tx.getPollById tst.nextId stF = some view ∧
        view.options.length = (tpoll.pollOptions.getD []).length ∧
        view.tags.length = (tpoll.tags.getD []).length) := by
  obtain ⟨-, hso, hst, -⟩ := hsf
  have hfil : ((Simple.createPoll spoll suid snow sst).2.options).filter
      (fun o => o.pollId == sst.nextId && !o.isDeleted) =
      Simple.mkOptionRows sst.nextId snow (sst.nextId + 1)
        spoll.pollOptions := by
    rw [Simple.createPoll_options, List.filter_append]
    have h1 : sst.options.filter (fun o =>
        o.pollId == sst.nextId && !o.isDeleted) = [] := by
      rw [List.filter_eq_nil_iff]
      intro o ho
      have := (hso o ho).2
      simp only [Bool.and_eq_true, beq_iff_eq, not_and]
      intro hpe
      exact absurd hpe (Nat.ne_of_lt this)
    have h2 : (Simple.mkOptionRows sst.nextId snow (sst.nextId + 1)
        spoll.pollOptions).filter (fun o =>
        o.pollId == sst.nextId && !o.isDeleted) =
        Simple.mkOptionRows sst.nextId snow (sst.nextId + 1)
          spoll.pollOptions := by
      rw [List.filter_eq_self]
      intro r hr
      obtain ⟨hr1, hr2⟩ := Simple.mkOptionRows_mem_simple _ _ _ _ r hr
      simp [hr1, hr2]
    rw [h1, h2, List.nil_append]
  have hget : Simple.getOptionsByPollId sst.nextId
      (Simple.createPoll spoll suid snow sst).2 =
      List.insertionSort (fun a b => a.index ≤ b.index)
        (Simple.mkOptionRows sst.nextId snow (sst.nextId + 1)
          spoll.pollOptions) := by
    unfold Simple.getOptionsByPollId
    rw [hfil]
  haveI : IsTotal Simple.OptionRow (fun a b => a.index ≤ b.index) :=
    ⟨fun a b => le_total a.index b.index⟩
  haveI : IsTrans Simple.OptionRow (fun a b => a.index ≤ b.index) :=
    ⟨fun a b c hab hbc => le_trans hab hbc⟩
  refine ⟨?_, ?_, ?_, ?_, ?_⟩
  · rw [hget, List.length_insertionSort, Simple.mkOptionRows_length_simple]
  · rw [hget]
    exact List.sorted_insertionSort _ _
  · intro hasc
    rw [hget]
    exact List.Sorted.insertionSort_eq
      (Simple.mkOptionRows_pairwise sst.nextId snow spoll.pollOptions hasc
        (sst.nextId + 1))
  · have hfilt : ((Simple.createPoll spoll suid snow sst).2.tags).filter
        (fun t => t.pollId == sst.nextId && !t.isDeleted &&
          t.userId == suid) =
        Simple.mkTagRows sst.nextId suid snow
          (sst.nextId + 1 + spoll.pollOptions.length)
          (spoll.tags.map (fun t => t.name)) := by
      rw [Simple.createPoll_tags, List.filter_append]
      have h1 : sst.tags.filter (fun t =>
          t.pollId == sst.nextId && !t.isDeleted && t.userId == suid) = [] := by
        rw [List.filter_eq_nil_iff]
        intro t ht
        have := (hst t ht).2
        simp only [Bool.and_eq_true, beq_iff_eq, not_and, and_imp]
        intro hpe
        exact absurd hpe (Nat.ne_of_lt this)
      have h2 : (Simple.mkTagRows sst.nextId suid snow
          (sst.nextId + 1 + spoll.pollOptions.length)
          (spoll.tags.map (fun t => t.name))).filter (fun t =>
          t.pollId == sst.nextId && !t.isDeleted && t.userId == suid) =
          Simple.mkTagRows sst.nextId suid snow
            (sst.nextId + 1 + spoll.pollOptions.length)
            (spoll.tags.map (fun t => t.name)) := by
        rw [List.filter_eq_self]
        intro r hr
        obtain ⟨hr1, hr2, hr3⟩ := Simple.mkTagRows_mem _ _ _ _ _ r hr
        simp [hr1, hr2, hr3]
      rw [h1, h2, List.nil_append]
    unfold Simple.getPollTags
    rw [hfilt, List.length_insertionSort, Simple.mkTagRows_length,
      List.length_map]
  · exact createPoll_get_counts_tx tpoll tuid tnow tst h htx htn hnames

/-- C7 counterexample: the claim equates "caller-supplied order" with
"ordered by index ascending"; creating a poll whose options arrive with
indexes 1 then 0 shows they differ — the simple variant returns the
options sorted by index (["B", "A"]), not in the caller-supplied order
(["A", "B"]). -/
theorem C7_create_then_get_counterexample :
    (Simple.getOptionsByPollId 0 unorderedSt).map (fun o => o.text) =
      ["B", "A"] ∧
    unorderedPayload.pollOptions.map (fun o => o.text) = ["A", "B"] := by
  decide

/-- C7 witness: the amended theorem applied to the concrete
descending-index poll and the one-option one-tag transactional poll. -/
theorem C7_create_then_get_witness :
    (Simple.getOptionsByPollId Simple.DB.empty.nextId
      (Simple.createPoll unorderedPayload 1 0 Simple.DB.empty).2).length =
      unorderedPayload.pollOptions.length :=
  (C7_create_then_get unorderedPayload 1 0 Simple.DB.empty
    cascadeDemoPayload 1 0 Tx.DB.empty
    (by unfold Simple.IdsFresh; decide) rfl
    (by unfold Tx.IdsFresh; decide)
    (by unfold Tx.TagIdsNodup; decide) (by decide)).1

namespace Tx

theorem pairwise_key_find (l : List TagRow)
    (hpw : l.Pairwise (fun a b => a.name ≠ b.name ∨ a.userId ≠ b.userId)) :
    ∀ t ∈ l, t.name = n → t.userId = uid →
      l.find? (fun x => x.name == n && x.userId == uid) = some t := by
  induction l with
  | nil => intro t ht; cases ht
  | cons a rest ih =>
    intro t ht hn hu
    obtain ⟨h1, h2⟩ := List.pairwise_cons.mp hpw
    rcases List.mem_cons.mp ht with rfl | ht
    · rw [List.find?_cons_of_pos _ (by simp [hn, hu])]
    · rw [List.find?_cons_of_neg, ih h2 t ht hn hu]
      simp only [Bool.and_eq_true, beq_iff_eq, not_and]
      intro han hau
      rcases h1 t ht with hne | hne
      · exact hne (by rw [han, hn])
      · exact hne (by rw [hau, hu])

theorem findOrResurrectTag_unique (n : String) (uid now : Nat) (st : DB)
    (hu : TagPerKeyUnique st) :
    TagPerKeyUnique (findOrResurrectTag n uid now st).2 := by
  rcases findOrResurrectTag_cases n uid now st with
    ⟨t0, hf, -, -, hst⟩ | ⟨t0, hf, -, -, hst⟩ | ⟨hf, -, hst⟩
  · rw [hst]; exact hu
  · rw [hst]
    unfold TagPerKeyUnique at hu ⊢
    dsimp only
    refine List.Pairwise.map _ ?_ hu
    intro a b hab
    by_cases ha : (a.id == t0.id) = true <;>
      by_cases hb : (b.id == t0.id) = true <;>
      simp only [ha, hb, if_pos, if_neg, if_true, if_false] <;>
      simpa using hab
  · rw [hst]
    unfold TagPerKeyUnique at hu ⊢
    dsimp only
    rw [List.pairwise_append]
    refine ⟨hu, List.pairwise_singleton _ _, ?_⟩
    intro a ha b hb
    simp only [List.mem_singleton] at hb
    subst hb
    have := List.find?_eq_none.mp hf a ha
    simp only [Bool.and_eq_true, beq_iff_eq, not_and] at this
    by_cases han : a.name = n
    · exact Or.inr (by simpa using this han)
    · exact Or.inl (by simpa using han)

theorem attachTag_unique (pid uid now : Nat) (st : DB) (n : String)
    (hu : TagPerKeyUnique st) :
    TagPerKeyUnique (attachTag pid uid now st n) := by
  show ((attachTag pid uid now st n).tags).Pairwise _
  rw [attachTag_eq, upsertTagMap_tags]
  exact findOrResurrectTag_unique n uid now st hu

theorem foldl_attach_unique (pid uid now : Nat) (names : List String) :
    ∀ s : DB, TagPerKeyUnique s →
      TagPerKeyUnique
        (names.foldl (fun acc n => attachTag pid uid now acc n) s) := by
  induction names with
  | nil => intro s hu; exact hu
  | cons n rest ih =>
    intro s hu
    simp only [List.foldl_cons]
    exact ih _ (attachTag_unique pid uid now s n hu)

theorem attachTag_persists_id_name (pid uid now : Nat) (st : DB)
    (n : String) (i u : Nat) (y : String)
    (h : ∃ t ∈ st.tags, t.id = i ∧ t.name = y ∧ t.userId = u) :
    ∃ t ∈ (attachTag pid uid now st n).tags,
      t.id = i ∧ t.name = y ∧ t.userId = u := by
  have : ((attachTag pid uid now st n).tags) =
      (findOrResurrectTag n uid now st).2.tags := by
    rw [attachTag_eq, upsertTagMap_tags]
  rw [this]
  exact findOrResurrectTag_persists_id_name n uid now st i y u h

theorem attachTag_persists_fullactive (pid uid now : Nat) (st : DB)
    (n : String) (i u : Nat) (y : String)
    (h : ∃ t ∈ st.tags, t.id = i ∧ t.name = y ∧ t.userId = u ∧
      t.isDeleted = false) :
    ∃ t ∈ (attachTag pid uid now st n).tags,
      t.id = i ∧ t.name = y ∧ t.userId = u ∧ t.isDeleted = false := by
  have htags : ((attachTag pid uid now st n).tags) =
      (findOrResurrectTag n uid now st).2.tags := by
    rw [attachTag_eq, upsertTagMap_tags]
  rw [htags]
  obtain ⟨t, ht, h1, h2, h3, h4⟩ := h
  rcases findOrResurrectTag_cases n uid now st with
    ⟨t0, -, -, -, hst⟩ | ⟨t0, -, -, -, hst⟩ | ⟨-, -, hst⟩
  · rw [hst]; exact ⟨t, ht, h1, h2, h3, h4⟩
  · rw [hst]
    refine ⟨_, List.mem_map_of_mem _ ht, ?_⟩
    by_cases hc : (t.id == t0.id) = true
    · rw [if_pos hc]; exact ⟨h1, h2, h3, rfl⟩
    · rw [if_neg hc]; exact ⟨h1, h2, h3, h4⟩
  · rw [hst]
    exact ⟨t, List.mem_append_left _ ht, h1, h2, h3, h4⟩

theorem foldl_attach_persists_fullactive (pid uid now : Nat)
    (names : List String) :
    ∀ (s : DB) (i u : Nat) (y : String),
      (∃ t ∈ s.tags, t.id = i ∧ t.name = y ∧ t.userId = u ∧
        t.isDeleted = false) →
      ∃ t ∈ (names.foldl (fun acc n => attachTag pid uid now acc n) s).tags,
        t.id = i ∧ t.name = y ∧ t.userId = u ∧ t.isDeleted = false := by
  induction names with
  | nil => intro s i u y h; exact h
  | cons n rest ih =>
    intro s i u y h
    simp only [List.foldl_cons]
    exact ih _ i u y (attachTag_persists_fullactive pid uid now s n i u y h)

theorem key_filter_le_one (l : List TagRow)
    (hpw : l.Pairwise (fun a b => a.name ≠ b.name ∨ a.userId ≠ b.userId))
    (n : String) (u : Nat) :
    (l.filter (fun x => x.name == n && x.userId == u && !x.isDeleted)).length
      ≤ 1 := by
  have hsub : (l.filter (fun x =>
      x.name == n && x.userId == u && !x.isDeleted)).Pairwise
      (fun a b => a.name ≠ b.name ∨ a.userId ≠ b.userId) :=
    hpw.sublist (List.filter_sublist l)
  cases hfl : l.filter (fun x =>
      x.name == n && x.userId == u && !x.isDeleted) with
  | nil => simp
  | cons a rest =>
    cases rest with
    | nil => simp
    | cons b rest2 =>
      exfalso
      rw [hfl] at hsub
      have hr := (List.pairwise_cons.mp hsub).1 b (List.mem_cons_self _ _)
      have ha : a ∈ l.filter (fun x =>
          x.name == n && x.userId == u && !x.isDeleted) := by
        rw [hfl]; exact List.mem_cons_self _ _
      have hb : b ∈ l.filter (fun x =>
          x.name == n && x.userId == u && !x.isDeleted) := by
        rw [hfl]; exact List.mem_cons_of_mem _ (List.mem_cons_self _ _)
      have hak := (List.mem_filter.mp ha).2
      have hbk := (List.mem_filter.mp hb).2
      simp only [Bool.and_eq_true, beq_iff_eq] at hak hbk
      rcases hr with hne | hne
      · exact hne (by rw [hak.1.1, hbk.1.1])
      · exact hne (by rw [hak.1.2, hbk.1.2])

theorem foldl_attach_activates (pid uid now : Nat) (names : List String) :
    ∀ (s : DB), TagPerKeyUnique s →
      ∀ (i : Nat) (y : String),
        (∃ t ∈ s.tags, t.id = i ∧ t.name = y ∧ t.userId = uid) →
        y ∈ names →
        ∃ t' ∈ (names.foldl (fun acc n => attachTag pid uid now acc n) s).tags,
          t'.id = i ∧ t'.name = y ∧ t'.userId = uid ∧
          t'.isDeleted = false := by
  induction names with
  | nil => intro s _ i y _ hy; cases hy
  | cons n rest ih =>
    intro s hu i y hex hy
    simp only [List.foldl_cons]
    rcases List.mem_cons.mp hy with rfl | hy
    · -- this step processes exactly the name y
      obtain ⟨t, ht, h1, h2, h3⟩ := hex
      have hfind := pairwise_key_find s.tags hu t ht h2 h3
      have hafter : ∃ t' ∈ (attachTag pid uid now s y).tags,
          t'.id = i ∧ t'.name = y ∧ t'.userId = uid ∧
          t'.isDeleted = false := by
        have htags : ((attachTag pid uid now s y).tags) =
            (findOrResurrectTag y uid now s).2.tags := by
          rw [attachTag_eq, upsertTagMap_tags]
        rw [htags]
        rcases findOrResurrectTag_cases y uid now s with
          ⟨t0, hf, hdel, -, hst⟩ | ⟨t0, hf, -, -, hst⟩ | ⟨hf, -, -⟩
        · rw [hf] at hfind
          injection hfind with he
          rw [hst]
          exact ⟨t, ht, h1, h2, h3, he ▸ hdel⟩
        · rw [hf] at hfind
          injection hfind with he
          subst he
          rw [hst]
          refine ⟨_, List.mem_map_of_mem _ ht, ?_⟩
          rw [if_pos (by simp)]
          exact ⟨h1, h2, h3, rfl⟩
        · rw [hf] at hfind
          cases hfind
      exact foldl_attach_persists_fullactive pid uid now rest _ i uid y hafter
    · exact ih _ (attachTag_unique pid uid now s n hu) i y
        (attachTag_persists_id_name pid uid now s n i uid y hex) hy

end Tx

/-- C4: when a tag with `(name, ownerUserId)` already exists, attaching
that name (via `tagPoll` or `createPoll`) reuses the existing row's id,
flips `isDeleted` back to `false` if it was soft-deleted, and never
inserts a second tag row: per-key uniqueness of the tag table is
preserved (so `tagPoll` leaves the table length unchanged when the key
exists), and afterwards at most one active tag per `(name, ownerUserId)`
exists. -/
theorem C4_tag_resurrection
    (pid uid now : Nat) (tagName : String) (st : Tx.DB) (b : Bool)
    (st' : Tx.DB) (hu : Tx.TagPerKeyUnique st)
    (hp : Tx.tagPoll pid tagName uid now st = some (b, st'))
    (tpoll : Tx.PollIn) (tuid tnow : Nat) (tst : Tx.DB) (r : Nat × Tx.DB)
    (hu2 : Tx.TagPerKeyUnique tst)
    (huid : tpoll.userId = some tuid)
    (hc : Tx.createPoll tpoll tnow tst = some r) :
    (Tx.TagPerKeyUnique st') ∧
    (∀ t ∈ st.tags, t.name = tagName → t.userId = uid →
      st'.tags.length = st.tags.length ∧
      ∃ t' ∈ st'.tags, t'.id = t.id ∧ t'.name = tagName ∧ t'.userId = uid ∧
        t'.isDeleted = false) ∧
    (Tx.TagPerKeyUnique r.2) ∧
    (∀ t ∈ tst.tags, t.userId = tuid →
      (∃ tg ∈ tpoll.tags.getD [], tg.name = t.name) →
      ∃ t' ∈ r.2.tags, t'.id = t.id ∧ t'.name = t.name ∧ t'.userId = tuid ∧
        t'.isDeleted = false) ∧
    (∀ (n : String) (u : Nat),
      ((st'.tags.filter (fun x =>
        x.name == n && x.userId == u && !x.isDeleted)).length ≤ 1) ∧
      ((r.2.tags.filter (fun x =>
        x.name == n && x.userId == u && !x.isDeleted)).length ≤ 1)) := by
  -- dissect tagPoll
  unfold Tx.tagPoll at hp
  cases hpf : st.polls.find? (fun p =>
      p.id == pid && p.userId == uid && !p.isDeleted) with
  | none => rw [hpf] at hp; exact absurd hp (by simp)
  | some p0 =>
  rw [hpf] at hp
  dsimp only at hp
  injection hp with hp'
  injection hp' with _ hst'
  have hst'tags : st'.tags = (Tx.findOrResurrectTag tagName uid now st).2.tags := by
    rw [← hst', Tx.upsertTagMap_tags]
  -- dissect createPoll
  unfold Tx.createPoll at hc
  rw [huid] at hc
  dsimp only at hc
  rw [Tx.insertOptionRow_foldl] at hc
  rw [← List.foldl_map (fun tg : Tx.TagIn => tg.name)
    (fun s n => Tx.attachTag tst.nextId tuid tnow s n)] at hc
  injection hc with hc'
  set st2 : Tx.DB :=
    { nextId := tst.nextId + 1 + (tpoll.pollOptions.getD []).length
      polls := tst.polls ++
        [{ id := tst.nextId, question := tpoll.question
           extraInfo := tpoll.extraInfo, userId := tuid, createdAt := tnow
           updatedAt := tnow, isDeleted := false }]
      options := tst.options ++
        Tx.mkOptionRows tst.nextId tnow (tst.nextId + 1)
          (tpoll.pollOptions.getD [])
      votes := tst.votes
      tags := tst.tags
      tagMaps := tst.tagMaps } with hst2def
  have hr2 : r.2 = ((tpoll.tags.getD []).map (fun t => t.name)).foldl
      (fun acc n => Tx.attachTag tst.nextId tuid tnow acc n) st2 := by
    rw [← hc']
  have hu2' : Tx.TagPerKeyUnique r.2 := by
    rw [hr2]
    exact Tx.foldl_attach_unique tst.nextId tuid tnow _ _ hu2
  have hu1' : Tx.TagPerKeyUnique st' := by
    show (st'.tags).Pairwise _
    rw [hst'tags]
    exact Tx.findOrResurrectTag_unique tagName uid now st hu
  refine ⟨hu1', ?_, hu2', ?_, ?_⟩
  · intro t ht hn hus
    have hfind := Tx.pairwise_key_find st.tags hu t ht hn hus
    rcases Tx.findOrResurrectTag_cases tagName uid now st with
      ⟨t0, hf, hdel, -, hstc⟩ | ⟨t0, hf, -, -, hstc⟩ | ⟨hf, -, -⟩
    · rw [hf] at hfind
      injection hfind with he
      rw [hst'tags, hstc]
      exact ⟨rfl, t, ht, rfl, hn, hus, he ▸ hdel⟩
    · rw [hf] at hfind
      injection hfind with he
      subst he
      rw [hst'tags, hstc]
      refine ⟨by simp, ?_⟩
      refine ⟨_, List.mem_map_of_mem _ ht, ?_⟩
      rw [if_pos (by simp)]
      exact ⟨rfl, hn, hus, rfl⟩
    · rw [hf] at hfind
      cases hfind
  · intro t ht hus ⟨tg, htg, hname⟩
    rw [hr2]
    exact Tx.foldl_attach_activates tst.nextId tuid tnow
      ((tpoll.tags.getD []).map (fun t => t.name)) st2
      (show Tx.TagPerKeyUnique st2 from hu2) t.id t.name
      ⟨t, ht, rfl, rfl, hus⟩
      (by rw [← hname]; exact List.mem_map_of_mem _ htg)
  · intro n u
    exact ⟨Tx.key_filter_le_one st'.tags hu1' n u,
      Tx.key_filter_le_one r.2.tags hu2' n u⟩

/-- C4 witness: the theorem applied to a state holding a soft-deleted
"pets" tag that `tagPoll` resurrects, and to a fresh `createPoll`. -/
theorem C4_tag_resurrection_witness :
    Tx.TagPerKeyUnique resurrectAfter :=
  (C4_tag_resurrection 0 1 5 "pets" resurrectSt true resurrectAfter
    (by unfold Tx.TagPerKeyUnique; decide) (by decide)
    cascadeDemoPayload 1 0 Tx.DB.empty (0, cascadeDemoSt)
    (by unfold Tx.TagPerKeyUnique; decide) rfl (by decide)).1

namespace Tx

theorem upsertTagMap_update (pid tid uid now : Nat) (st : DB)
    (h : ∃ m ∈ st.tagMaps, m.pollId = pid ∧ m.tagId = tid ∧ m.userId = uid) :
    upsertTagMap pid tid uid now st =
      { st with tagMaps := st.tagMaps.map (fun m =>
          if m.pollId == pid && m.tagId == tid && m.userId == uid then
            { m with isDeleted := false, createdAt := now }
          else m) } := by
  unfold upsertTagMap
  rw [if_pos]
  rw [List.any_eq_true]
  obtain ⟨m, hm, h1, h2, h3⟩ := h
  exact ⟨m, hm, by simp [h1, h2, h3]⟩

theorem attach_step2 (p u nw : Nat) (n : String) (s : DB) :
    ∃ tid : Nat,
      (∃ t', (attachTag p u nw s n).tags.find?
          (fun x => x.name == n && x.userId == u) = some t' ∧
        t'.id = tid ∧ t'.isDeleted = false) ∧
      (((attachTag p u nw s n).tagMaps = s.tagMaps.map (fun m =>
          if m.pollId == p && m.tagId == tid && m.userId == u then
            { m with isDeleted := false, createdAt := nw }
          else m) ∧
        (∃ m ∈ s.tagMaps, m.pollId = p ∧ m.tagId = tid ∧ m.userId = u)) ∨
       ((∃ mid, (attachTag p u nw s n).tagMaps = s.tagMaps ++
          [{ id := mid, pollId := p, tagId := tid, userId := u
             createdAt := nw, updatedAt := nw, isDeleted := false }]) ∧
        (¬ ∃ m ∈ s.tagMaps, m.pollId = p ∧ m.tagId = tid ∧ m.userId = u))) ∧
      (∀ (n' : String) (t : TagRow),
        s.tags.find? (fun x => x.name == n' && x.userId == u) = some t →
        ∃ t', (attachTag p u nw s n).tags.find?
            (fun x => x.name == n' && x.userId == u) = some t' ∧
          t'.id = t.id ∧ (t.isDeleted = false → t'.isDeleted = false)) := by
  classical
  have htagseq : ((attachTag p u nw s n).tags) =
      (findOrResurrectTag n u nw s).2.tags := by
    rw [attachTag_eq, upsertTagMap_tags]
  have hmapseq : (attachTag p u nw s n).tagMaps =
      (upsertTagMap p (findOrResurrectTag n u nw s).1.id u nw
        (findOrResurrectTag n u nw s).2).tagMaps := by
    rw [attachTag_eq]
  refine ⟨(findOrResurrectTag n u nw s).1.id, ?_, ?_, ?_⟩
  · -- the attached name is found active afterwards
    rw [htagseq]
    rcases findOrResurrectTag_cases n u nw s with
      ⟨t0, hf, hdel, hr1, hst⟩ | ⟨t0, hf, hdel, hr1, hst⟩ | ⟨hf, hr1, hst⟩
    · rw [hst, hf, hr1]
      exact ⟨t0, rfl, rfl, hdel⟩
    · rw [hst, hr1]
      dsimp only
      have hp := List.find?_some hf
      rw [List.find?_map]
      have hpred : ((fun x : TagRow => x.name == n && x.userId == u) ∘
          (fun x : TagRow => if x.id == t0.id then
            { x with isDeleted := false, updatedAt := nw } else x)) =
          (fun x : TagRow => x.name == n && x.userId == u) := by
        funext x
        by_cases hc : (x.id == t0.id) = true
        · simp only [Function.comp, if_pos hc]
        · simp only [Function.comp, if_neg hc]
      rw [hpred, hf]
      refine ⟨_, rfl, ?_, ?_⟩
      · dsimp only
        rw [if_pos (by simp)]
      · dsimp only
        rw [if_pos (by simp)]
    · rw [hst, hr1]
      dsimp only
      rw [List.find?_append, hf, Option.none_or]
      rw [List.find?_cons_of_pos _ (by simp)]
      exact ⟨_, rfl, rfl, rfl⟩
  · -- the mapping table is either updated in place or extended
    by_cases hex : ∃ m ∈ s.tagMaps, m.pollId = p ∧
        m.tagId = (findOrResurrectTag n u nw s).1.id ∧ m.userId = u
    · left
      refine ⟨?_, hex⟩
      rw [hmapseq, upsertTagMap_update p _ u nw _ (by
        rw [findOrResurrectTag_tagMaps]
        exact hex)]
      dsimp only
      rw [findOrResurrectTag_tagMaps]
    · right
      refine ⟨?_, hex⟩
      rw [hmapseq, upsertTagMap_insert p _ u nw _ (by
        rw [findOrResurrectTag_tagMaps]
        intro m hm hk
        exact hex ⟨m, hm, hk⟩)]
      dsimp only
      rw [findOrResurrectTag_tagMaps]
      exact ⟨(findOrResurrectTag n u nw s).2.nextId, rfl⟩
  · -- find?-stability for every name under the same user
    intro n' t hft
    rw [htagseq]
    rcases findOrResurrectTag_cases n u nw s with
      ⟨t0, hf, hdel, -, hst⟩ | ⟨t0, hf, hdel, -, hst⟩ | ⟨hf, -, hst⟩
    · rw [hst]
      exact ⟨t, hft, rfl, fun h => h⟩
    · rw [hst]
      dsimp only
      rw [List.find?_map]
      have hpred : ((fun x : TagRow => x.name == n' && x.userId == u) ∘
          (fun x : TagRow => if x.id == t0.id then
            { x with isDeleted := false, updatedAt := nw } else x)) =
          (fun x : TagRow => x.name == n' && x.userId == u) := by
        funext x
        by_cases hc : (x.id == t0.id) = true
        · simp only [Function.comp, if_pos hc]
        · simp only [Function.comp, if_neg hc]
      rw [hpred, hft]
      refine ⟨_, rfl, ?_, ?_⟩
      · dsimp only
        by_cases hc : (t.id == t0.id) = true
        · rw [if_pos hc]
        · rw [if_neg hc]
      · intro hact
        dsimp only
        by_cases hc : (t.id == t0.id) = true
        · rw [if_pos hc]
        · rw [if_neg hc]; exact hact
    · rw [hst]
      dsimp only
      rw [List.find?_append, hft]
      exact ⟨t, rfl, rfl, fun h => h⟩

end Tx

namespace Tx

theorem foldl_attach_find_stable (p u nw : Nat) (names : List String) :
    ∀ (s : DB) (n' : String) (t : TagRow),
      s.tags.find? (fun x => x.name == n' && x.userId == u) = some t →
      ∃ t', (names.foldl (fun acc n => attachTag p u nw acc n) s).tags.find?
          (fun x => x.name == n' && x.userId == u) = some t' ∧
        t'.id = t.id ∧ (t.isDeleted = false → t'.isDeleted = false) := by
  induction names with
  | nil => intro s n' t h; exact ⟨t, h, rfl, fun h => h⟩
  | cons n rest ih =>
    intro s n' t h
    simp only [List.foldl_cons]
    obtain ⟨tid, -, -, hstab⟩ := attach_step2 p u nw n s
    obtain ⟨t1, h1, h2, h3⟩ := hstab n' t h
    obtain ⟨t2, g1, g2, g3⟩ := ih (attachTag p u nw s n) n' t1 h1
    exact ⟨t2, g1, by rw [g2, h2], fun ha => g3 (h3 ha)⟩

theorem foldl_attach_conforming (p u nw i : Nat) (names : List String) :
    ∀ s : DB,
      (∀ m ∈ s.tagMaps, m.pollId = p → m.tagId = i → m.userId = u →
        m.isDeleted = false ∧ m.createdAt = nw) →
      ∀ m ∈ (names.foldl (fun acc n => attachTag p u nw acc n) s).tagMaps,
        m.pollId = p → m.tagId = i → m.userId = u →
        m.isDeleted = false ∧ m.createdAt = nw := by
  induction names with
  | nil => intro s h; exact h
  | cons n rest ih =>
    intro s h
    simp only [List.foldl_cons]
    refine ih (attachTag p u nw s n) ?_
    obtain ⟨tid, -, hmaps, -⟩ := attach_step2 p u nw n s
    rcases hmaps with ⟨heq, -⟩ | ⟨⟨mid, heq⟩, -⟩
    · rw [heq]
      intro m' hm' hp' ht' hu'
      obtain ⟨m, hm, rfl⟩ := List.mem_map.mp hm'
      by_cases hc : (m.pollId == p && m.tagId == tid && m.userId == u) = true
      · rw [if_pos hc]
        exact ⟨rfl, rfl⟩
      · rw [if_neg hc]
        rw [if_neg hc] at hp' ht' hu'
        exact h m hm hp' ht' hu'
    · rw [heq]
      intro m' hm' hp' ht' hu'
      rcases List.mem_append.mp hm' with hm' | hm'
      · exact h m' hm' hp' ht' hu'
      · simp only [List.mem_singleton] at hm'
        subst hm'
        exact ⟨rfl, rfl⟩

theorem attachTag_keyrow (p u nw p2 i u2 : Nat) (n : String) (s : DB)
    (h : ∃ m ∈ s.tagMaps, m.pollId = p2 ∧ m.tagId = i ∧ m.userId = u2) :
    ∃ m ∈ (attachTag p u nw s n).tagMaps,
      m.pollId = p2 ∧ m.tagId = i ∧ m.userId = u2 := by
  obtain ⟨tid, -, hmaps, -⟩ := attach_step2 p u nw n s
  obtain ⟨m, hm, h1, h2, h3⟩ := h
  rcases hmaps with ⟨heq, -⟩ | ⟨⟨mid, heq⟩, -⟩
  · rw [heq]
    refine ⟨_, List.mem_map_of_mem _ hm, ?_⟩
    by_cases hc : (m.pollId == p && m.tagId == tid && m.userId == u) = true
    · rw [if_pos hc]
      exact ⟨h1, h2, h3⟩
    · rw [if_neg hc]
      exact ⟨h1, h2, h3⟩
  · rw [heq]
    exact ⟨m, List.mem_append_left _ hm, h1, h2, h3⟩

theorem foldl_attach_keyrow (p u nw p2 i u2 : Nat) (names : List String) :
    ∀ s : DB,
      (∃ m ∈ s.tagMaps, m.pollId = p2 ∧ m.tagId = i ∧ m.userId = u2) →
      ∃ m ∈ (names.foldl (fun acc n => attachTag p u nw acc n) s).tagMaps,
        m.pollId = p2 ∧ m.tagId = i ∧ m.userId = u2 := by
  induction names with
  | nil => intro s h; exact h
  | cons n rest ih =>
    intro s h
    simp only [List.foldl_cons]
    exact ih _ (attachTag_keyrow p u nw p2 i u2 n s h)

end Tx

namespace Tx

theorem run1_estab (p u nw : Nat) (P : String → Prop) (names : List String) :
    ∀ s : DB,
      (∀ n ∈ names, P n) →
      (∀ r ∈ s.tagMaps, r.pollId = p → r.isDeleted = false →
        r.userId = u ∧ r.createdAt = nw ∧
        ∃ n, P n ∧ ∃ t, s.tags.find?
          (fun x => x.name == n && x.userId == u) = some t ∧ t.id = r.tagId) →
      (∀ r ∈ (names.foldl (fun acc n => attachTag p u nw acc n) s).tagMaps,
        r.pollId = p → r.isDeleted = false →
        r.userId = u ∧ r.createdAt = nw ∧
        ∃ n, P n ∧ ∃ t,
          (names.foldl (fun acc n => attachTag p u nw acc n) s).tags.find?
            (fun x => x.name == n && x.userId == u) = some t ∧
          t.id = r.tagId) ∧
      (∀ n ∈ names, ∃ t,
        (names.foldl (fun acc n => attachTag p u nw acc n) s).tags.find?
          (fun x => x.name == n && x.userId == u) = some t ∧
        t.isDeleted = false ∧
        (∃ m ∈ (names.foldl (fun acc n => attachTag p u nw acc n) s).tagMaps,
          m.pollId = p ∧ m.tagId = t.id ∧ m.userId = u) ∧
        (∀ m ∈ (names.foldl (fun acc n => attachTag p u nw acc n) s).tagMaps,
          m.pollId = p → m.tagId = t.id → m.userId = u →
          m.isDeleted = false ∧ m.createdAt = nw)) := by
  induction names with
  | nil =>
    intro s _ hInv
    exact ⟨hInv, fun n hn => absurd hn (List.not_mem_nil n)⟩
  | cons n rest ih =>
    intro s hmono hInv
    simp only [List.foldl_cons]
    obtain ⟨tid, ⟨tA, hfA, hidA, hdelA⟩, hmaps, hstab⟩ := attach_step2 p u nw n s
    have hPn : P n := hmono n (List.mem_cons_self _ _)
    -- the invariant holds again after the head step
    have hInv' : ∀ r ∈ (attachTag p u nw s n).tagMaps, r.pollId = p →
        r.isDeleted = false →
        r.userId = u ∧ r.createdAt = nw ∧
        ∃ n0, P n0 ∧ ∃ t, (attachTag p u nw s n).tags.find?
          (fun x => x.name == n0 && x.userId == u) = some t ∧
          t.id = r.tagId := by
      rcases hmaps with ⟨heq, -⟩ | ⟨⟨mid, heq⟩, -⟩
      · rw [heq]
        intro r hr hp hd
        obtain ⟨m, hm, rfl⟩ := List.mem_map.mp hr
        by_cases hc : (m.pollId == p && m.tagId == tid && m.userId == u) = true
        · rw [if_pos hc] at hp hd ⊢
          simp only [Bool.and_eq_true, beq_iff_eq] at hc
          exact ⟨hc.2, rfl, n, hPn, tA, hfA, by rw [hidA, hc.1.2]⟩
        · rw [if_neg hc] at hp hd ⊢
          obtain ⟨g1, g2, n0, g3, t, g4, g5⟩ := hInv m hm hp hd
          obtain ⟨t', g6, g7, -⟩ := hstab n0 t g4
          exact ⟨g1, g2, n0, g3, t', g6, by rw [g7, g5]⟩
      · rw [heq]
        intro r hr hp hd
        rcases List.mem_append.mp hr with hr | hr
        · obtain ⟨g1, g2, n0, g3, t, g4, g5⟩ := hInv r hr hp hd
          obtain ⟨t', g6, g7, -⟩ := hstab n0 t g4
          exact ⟨g1, g2, n0, g3, t', g6, by rw [g7, g5]⟩
        · simp only [List.mem_singleton] at hr
          subst hr
          exact ⟨rfl, rfl, n, hPn, tA, hfA, hidA⟩
    obtain ⟨ihInv, ihNames⟩ := ih (attachTag p u nw s n)
      (fun n0 hn0 => hmono n0 (List.mem_cons_of_mem _ hn0)) hInv'
    refine ⟨ihInv, ?_⟩
    intro n0 hn0
    rcases List.mem_cons.mp hn0 with rfl | hn0
    · -- the head name: lift the step facts through the rest of the fold
      obtain ⟨tF, f1, f2, f3⟩ :=
        foldl_attach_find_stable p u nw rest (attachTag p u nw s n0) n0 tA hfA
      refine ⟨tF, f1, f3 hdelA, ?_, ?_⟩
      · have hkey0 : ∃ m ∈ (attachTag p u nw s n0).tagMaps,
            m.pollId = p ∧ m.tagId = tid ∧ m.userId = u := by
          rcases hmaps with ⟨heq, ⟨m, hm, h1, h2, h3⟩⟩ | ⟨⟨mid, heq⟩, -⟩
          · rw [heq]
            refine ⟨_, List.mem_map_of_mem _ hm, ?_⟩
            rw [if_pos (by simp [h1, h2, h3])]
            exact ⟨h1, h2, h3⟩
          · rw [heq]
            exact ⟨_, List.mem_append_right _ (List.mem_singleton_self _),
              rfl, rfl, rfl⟩
        rw [f2, hidA]
        exact foldl_attach_keyrow p u nw p tid u rest _ hkey0
      · intro m hm g1 g2 g3
        refine foldl_attach_conforming p u nw tid rest _ ?_ m hm g1 ?_ g3
        · rcases hmaps with ⟨heq, -⟩ | ⟨⟨mid, heq⟩, hno⟩
          · rw [heq]
            intro m' hm' e1 e2 e3
            obtain ⟨m0, hm0, rfl⟩ := List.mem_map.mp hm'
            by_cases hc : (m0.pollId == p && m0.tagId == tid &&
                m0.userId == u) = true
            · rw [if_pos hc]
              exact ⟨rfl, rfl⟩
            · rw [if_neg hc] at e1 e2 e3
              exact absurd (by simp [e1, e2, e3]) hc
          · rw [heq]
            intro m' hm' e1 e2 e3
            rcases List.mem_append.mp hm' with hm' | hm'
            · exact absurd ⟨m', hm', e1, e2, e3⟩ hno
            · simp only [List.mem_singleton] at hm'
              subst hm'
              exact ⟨rfl, rfl⟩
        · rw [f2, hidA] at g2
          exact g2
    · exact ihNames n0 hn0

end Tx

namespace Tx

theorem findOrResurrectTag_active_eq (n : String) (u nw : Nat) (s : DB)
    (t : TagRow)
    (hf : s.tags.find? (fun x => x.name == n && x.userId == u) = some t)
    (hact : t.isDeleted = false) :
    findOrResurrectTag n u nw s = (t, s) := by
  unfold findOrResurrectTag
  rw [hf]
  dsimp only
  rw [hact]
  rfl

theorem attachTag_res (p u nw : Nat) (n : String) (s : DB) (t : TagRow)
    (hf : s.tags.find? (fun x => x.name == n && x.userId == u) = some t)
    (hact : t.isDeleted = false)
    (hkey : ∃ m ∈ s.tagMaps, m.pollId = p ∧ m.tagId = t.id ∧ m.userId = u) :
    attachTag p u nw s n =
      { s with tagMaps := s.tagMaps.map (resurrectKey p u nw t.id) } := by
  rw [attachTag_eq, findOrResurrectTag_active_eq n u nw s t hf hact]
  dsimp only
  rw [upsertTagMap_update p t.id u nw s hkey]
  rfl

theorem keyTagIds_cons_some (u : Nat) (tags : List TagRow) (n : String)
    (names : List String) (t : TagRow)
    (hf : tags.find? (fun x => x.name == n && x.userId == u) = some t) :
    keyTagIds u tags (n :: names) = t.id :: keyTagIds u tags names := by
  unfold keyTagIds
  exact List.filterMap_cons_some (by rw [hf]; rfl)

theorem keyTagIds_mem (u : Nat) (tags : List TagRow) (names : List String)
    (i : Nat) :
    i ∈ keyTagIds u tags names ↔
      ∃ n ∈ names, ∃ t,
        tags.find? (fun x => x.name == n && x.userId == u) = some t ∧
        t.id = i := by
  unfold keyTagIds
  rw [List.mem_filterMap]
  constructor
  · rintro ⟨n, hn, hfn⟩
    rw [Option.map_eq_some'] at hfn
    obtain ⟨t, hft, hid⟩ := hfn
    exact ⟨n, hn, t, hft, hid⟩
  · rintro ⟨n, hn, t, hft, hid⟩
    refine ⟨n, hn, ?_⟩
    rw [hft]
    simp [hid]

end Tx

namespace Tx

theorem fold_attach_collapse (p u nw : Nat) (names : List String) :
    ∀ s : DB,
      (∀ n ∈ names, ∃ t,
        s.tags.find? (fun x => x.name == n && x.userId == u) = some t ∧
        t.isDeleted = false ∧
        ∃ m ∈ s.tagMaps, m.pollId = p ∧ m.tagId = t.id ∧ m.userId = u) →
      names.foldl (fun acc n => attachTag p u nw acc n) s =
        { s with tagMaps := s.tagMaps.map (fun m =>
            (keyTagIds u s.tags names).foldl
              (fun m i => resurrectKey p u nw i m) m) } := by
  induction names with
  | nil =>
    intro s _
    simp only [List.foldl_nil, keyTagIds, List.filterMap_nil]
    rw [List.map_id']
  | cons n rest ih =>
    intro s h
    obtain ⟨t, hf, hact, hkey⟩ := h n (List.mem_cons_self _ _)
    have hstep := attachTag_res p u nw n s t hf hact hkey
    simp only [List.foldl_cons]
    rw [hstep]
    rw [ih { s with tagMaps := s.tagMaps.map (resurrectKey p u nw t.id) } ?hyp]
    case hyp =>
      intro n' hn'
      obtain ⟨t', hf', hact', m, hm, k1, k2, k3⟩ :=
        h n' (List.mem_cons_of_mem _ hn')
      refine ⟨t', hf', hact', resurrectKey p u nw t.id m,
        List.mem_map_of_mem _ hm, ?_⟩
      unfold resurrectKey
      split
      · exact ⟨k1, k2, k3⟩
      · exact ⟨k1, k2, k3⟩
    have hk : keyTagIds u s.tags (n :: rest) = t.id :: keyTagIds u s.tags rest :=
      keyTagIds_cons_some u s.tags n rest t hf
    rw [List.map_map, hk]
    rfl

theorem resurrectKey_eta (p u nw i : Nat) (m : TagMapRow)
    (hd : m.isDeleted = false) (hc : m.createdAt = nw) :
    resurrectKey p u nw i m = m := by
  unfold resurrectKey
  split
  · obtain ⟨mi, mp, mt, mu, mc, mup, md⟩ := m
    dsimp only at hd hc ⊢
    rw [hd, hc]
  · rfl

theorem resFold_fixed (p u nw : Nat) (tids : List Nat) (m : TagMapRow)
    (hd : m.isDeleted = false) (hc : m.createdAt = nw) :
    tids.foldl (fun m i => resurrectKey p u nw i m) m = m := by
  induction tids with
  | nil => rfl
  | cons i rest ih =>
    simp only [List.foldl_cons]
    rw [resurrectKey_eta p u nw i m hd hc]
    exact ih

theorem resFold_nomatch (p u nw : Nat) (tids : List Nat) (m : TagMapRow)
    (h : ∀ i ∈ tids, ¬(m.pollId = p ∧ m.tagId = i ∧ m.userId = u)) :
    tids.foldl (fun m i => resurrectKey p u nw i m) m = m := by
  induction tids with
  | nil => rfl
  | cons i rest ih =>
    simp only [List.foldl_cons]
    have hs : resurrectKey p u nw i m = m := by
      unfold resurrectKey
      rw [if_neg]
      intro hb
      simp only [Bool.and_eq_true, beq_iff_eq] at hb
      exact h i (List.mem_cons_self _ _) ⟨hb.1.1, hb.1.2, hb.2⟩
    rw [hs]
    exact ih (fun i' hi' => h i' (List.mem_cons_of_mem _ hi'))

theorem resFold_restore (p u nw : Nat) (tids : List Nat) (m : TagMapRow)
    (hp : m.pollId = p) (hu : m.userId = u) (hd : m.isDeleted = false)
    (hc : m.createdAt = nw) (hmem : m.tagId ∈ tids) :
    tids.foldl (fun m i => resurrectKey p u nw i m)
      { m with isDeleted := true } = m := by
  induction tids with
  | nil => exact absurd hmem (List.not_mem_nil _)
  | cons i rest ih =>
    simp only [List.foldl_cons]
    by_cases hi : m.tagId = i
    · have hs : resurrectKey p u nw i { m with isDeleted := true } = m := by
        unfold resurrectKey
        rw [if_pos (by simp [hp, hu, hi])]
        obtain ⟨mi, mp, mt, mu, mc, mup, md⟩ := m
        dsimp only at hd hc ⊢
        rw [hd, hc]
      rw [hs]
      exact resFold_fixed p u nw rest m hd hc
    · have hs : resurrectKey p u nw i { m with isDeleted := true } =
          { m with isDeleted := true } := by
        unfold resurrectKey
        rw [if_neg]
        intro hb
        simp only [Bool.and_eq_true, beq_iff_eq] at hb
        exact hi hb.1.2
      rw [hs]
      exact ih ((List.mem_cons.mp hmem).resolve_left hi)

end Tx

namespace Tx

theorem setPollTags_settled_fixed (p u nw : Nat) (names : List String)
    (st : DB)
    (hA : ∀ n ∈ names, ∃ t,
      st.tags.find? (fun x => x.name == n && x.userId == u) = some t ∧
      t.isDeleted = false ∧
      (∃ m ∈ st.tagMaps, m.pollId = p ∧ m.tagId = t.id ∧ m.userId = u) ∧
      (∀ m ∈ st.tagMaps, m.pollId = p → m.tagId = t.id → m.userId = u →
        m.isDeleted = false ∧ m.createdAt = nw))
    (hB : ∀ r ∈ st.tagMaps, r.pollId = p → r.isDeleted = false →
      r.userId = u ∧ r.createdAt = nw ∧
      ∃ n, n ∈ names ∧ ∃ t,
        st.tags.find? (fun x => x.name == n && x.userId == u) = some t ∧
        t.id = r.tagId) :
    setPollTags p u names nw st = st := by
  unfold setPollTags
  rw [fold_attach_collapse p u nw names (deleteAllMaps p st) ?hyp]
  case hyp =>
    intro n hn
    obtain ⟨t, hf, hact, ⟨m, hm, k1, k2, k3⟩, -⟩ := hA n hn
    refine ⟨t, hf, hact, ?_⟩
    unfold deleteAllMaps
    dsimp only
    refine ⟨_, List.mem_map_of_mem _ hm, ?_⟩
    by_cases hc : (m.pollId == p) = true
    · rw [if_pos hc]
      exact ⟨k1, k2, k3⟩
    · rw [if_neg hc]
      exact ⟨k1, k2, k3⟩
  show ({ st with tagMaps := (st.tagMaps.map _).map _ } : DB) = st
  rw [List.map_map]
  rw [show (deleteAllMaps p st).tags = st.tags from rfl]
  have hpt : ∀ m ∈ st.tagMaps,
      ((fun m => (keyTagIds u st.tags names).foldl
          (fun m i => resurrectKey p u nw i m) m) ∘
        (fun m => if m.pollId == p then { m with isDeleted := true } else m))
        m = m := by
    intro m hm
    dsimp only [Function.comp]
    by_cases hp : m.pollId = p
    · by_cases hdel : m.isDeleted = true
      · -- a soft-deleted row of the poll: stays deleted, no id matches it
        rw [if_pos (by simp [hp])]
        have hmx : ({ m with isDeleted := true } : TagMapRow) = m := by
          obtain ⟨mi, mp, mt, mu, mc, mup, md⟩ := m
          dsimp only at hdel
          rw [hdel]
        rw [hmx]
        refine resFold_nomatch p u nw _ m ?_
        intro i hi ⟨g1, g2, g3⟩
        obtain ⟨n, hn, t, hft, hid⟩ := (keyTagIds_mem u st.tags names i).mp hi
        obtain ⟨t', hft', -, -, hconf⟩ := hA n hn
        have ht : t = t' := (Option.some.inj (hft'.symm.trans hft)).symm
        have := (hconf m hm g1 (by rw [g2, ← hid, ht]) g3).1
        rw [this] at hdel
        exact Bool.noConfusion hdel
      · -- an active row of the poll: re-deleted then restored verbatim
        have hd : m.isDeleted = false := by
          cases hmd : m.isDeleted
          · rfl
          · exact absurd hmd hdel
        obtain ⟨hu, hc, n, hn, t, hft, hid⟩ := hB m hm hp hd
        rw [if_pos (by simp [hp])]
        refine resFold_restore p u nw _ m hp hu hd hc ?_
        exact (keyTagIds_mem u st.tags names m.tagId).mpr ⟨n, hn, t, hft, hid⟩
    · -- a row of another poll: untouched by the delete and by every restore
      rw [if_neg (by simp [hp])]
      refine resFold_nomatch p u nw _ m ?_
      intro i hi ⟨g1, g2, g3⟩
      exact hp g1
  have hmaps : st.tagMaps.map
      ((fun m => (keyTagIds u st.tags names).foldl
          (fun m i => resurrectKey p u nw i m) m) ∘
        (fun m => if m.pollId == p then { m with isDeleted := true } else m)) =
      st.tagMaps := by
    rw [List.map_congr_left hpt, List.map_id']
  rw [hmaps]

end Tx

namespace Tx

theorem attachTag_mapUnique (p u nw : Nat) (n : String) (s : DB)
    (h : MapPerKeyUnique s) : MapPerKeyUnique (attachTag p u nw s n) := by
  obtain ⟨tid, -, hmaps, -⟩ := attach_step2 p u nw n s
  unfold MapPerKeyUnique at h ⊢
  rcases hmaps with ⟨heq, -⟩ | ⟨⟨mid, heq⟩, hno⟩
  · rw [heq, List.pairwise_map]
    refine h.imp ?_
    intro a b hab
    have hf : ∀ x : TagMapRow,
        ((if x.pollId == p && x.tagId == tid && x.userId == u then
            { x with isDeleted := false, createdAt := nw }
          else x) : TagMapRow).pollId = x.pollId ∧
        ((if x.pollId == p && x.tagId == tid && x.userId == u then
            { x with isDeleted := false, createdAt := nw }
          else x) : TagMapRow).tagId = x.tagId ∧
        ((if x.pollId == p && x.tagId == tid && x.userId == u then
            { x with isDeleted := false, createdAt := nw }
          else x) : TagMapRow).userId = x.userId := by
      intro x
      split
      · exact ⟨rfl, rfl, rfl⟩
      · exact ⟨rfl, rfl, rfl⟩
    obtain ⟨pa, ta, ua⟩ := hf a
    obtain ⟨pb, tb, ub⟩ := hf b
    rw [pa, pb, ta, tb, ua, ub]
    exact hab
  · rw [heq, List.pairwise_append]
    refine ⟨h, List.pairwise_singleton _ _, ?_⟩
    intro a ha b hb
    simp only [List.mem_singleton] at hb
    subst hb
    by_cases h1 : a.pollId = p
    · by_cases h2 : a.tagId = tid
      · by_cases h3 : a.userId = u
        · exact absurd ⟨a, ha, h1, h2, h3⟩ hno
        · exact Or.inr (Or.inr h3)
      · exact Or.inr (Or.inl h2)
    · exact Or.inl h1

theorem fold_attach_mapUnique (p u nw : Nat) (names : List String) :
    ∀ s : DB, MapPerKeyUnique s →
      MapPerKeyUnique (names.foldl (fun acc n => attachTag p u nw acc n) s) := by
  induction names with
  | nil => intro s h; exact h
  | cons n rest ih =>
    intro s h
    simp only [List.foldl_cons]
    exact ih _ (attachTag_mapUnique p u nw n s h)

theorem deleteAllMaps_mapUnique (p : Nat) (s : DB)
    (h : MapPerKeyUnique s) : MapPerKeyUnique (deleteAllMaps p s) := by
  unfold MapPerKeyUnique at h ⊢
  unfold deleteAllMaps
  dsimp only
  rw [List.pairwise_map]
  refine h.imp ?_
  intro a b hab
  have hf : ∀ x : TagMapRow,
      ((if x.pollId == p then { x with isDeleted := true } else x) :
        TagMapRow).pollId = x.pollId ∧
      ((if x.pollId == p then { x with isDeleted := true } else x) :
        TagMapRow).tagId = x.tagId ∧
      ((if x.pollId == p then { x with isDeleted := true } else x) :
        TagMapRow).userId = x.userId := by
    intro x
    split
    · exact ⟨rfl, rfl, rfl⟩
    · exact ⟨rfl, rfl, rfl⟩
  obtain ⟨pa, ta, ua⟩ := hf a
  obtain ⟨pb, tb, ub⟩ := hf b
  rw [pa, pb, ta, tb, ua, ub]
  exact hab

theorem setPollTags_mapUnique (p u nw : Nat) (names : List String) (s : DB)
    (h : MapPerKeyUnique s) : MapPerKeyUnique (setPollTags p u names nw s) := by
  unfold setPollTags
  exact fold_attach_mapUnique p u nw names _ (deleteAllMaps_mapUnique p s h)

end Tx

namespace Tx

/-- C5: the set-tags-to-exactly-this-list reconciliation of the transactional
`updatePoll` is idempotent: starting from a mapping table with at most one
row per `(pollId, tagId, userId)` key, running the reconciliation a second
time with the same poll, caller and name list reproduces the state of the
first run exactly (same active mappings, no extra soft-deletes, no new
rows), and the first run keeps the mapping table free of duplicate keys. -/
theorem C5_set_tags_idempotent (pid uid now : Nat) (names : List String)
    (st : DB) (h : MapPerKeyUnique st) :
    setPollTags pid uid names now (setPollTags pid uid names now st) =
      setPollTags pid uid names now st ∧
    MapPerKeyUnique (setPollTags pid uid names now st) := by
  constructor
  · have hInv0 : ∀ r ∈ (deleteAllMaps pid st).tagMaps, r.pollId = pid →
        r.isDeleted = false →
        r.userId = uid ∧ r.createdAt = now ∧
        ∃ n, n ∈ names ∧ ∃ t, (deleteAllMaps pid st).tags.find?
          (fun x => x.name == n && x.userId == uid) = some t ∧
          t.id = r.tagId := by
      intro r hr hp hd
      unfold deleteAllMaps at hr
      dsimp only at hr
      obtain ⟨m, hm, rfl⟩ := List.mem_map.mp hr
      by_cases hc : (m.pollId == pid) = true
      · rw [if_pos hc] at hd
        exact Bool.noConfusion hd
      · rw [if_neg hc] at hp
        exact absurd (by simp [hp]) hc
    obtain ⟨hB, hNames⟩ := run1_estab pid uid now (fun n => n ∈ names) names
      (deleteAllMaps pid st) (fun n hn => hn) hInv0
    refine setPollTags_settled_fixed pid uid now names
      (setPollTags pid uid names now st) ?_ ?_
    · intro n hn
      obtain ⟨t, h1, h2, h3, h4⟩ := hNames n hn
      exact ⟨t, h1, h2, h3, h4⟩
    · intro r hr hp hd
      obtain ⟨g1, g2, n, g3, t, g4, g5⟩ := hB r hr hp hd
      exact ⟨g1, g2, n, g3, t, g4, g5⟩
  · exact setPollTags_mapUnique pid uid now names st h

theorem C5_set_tags_idempotent_witness :
    MapPerKeyUnique DB.empty ∧
    (setPollTags 0 1 ["x", "y"] 5 (setPollTags 0 1 ["x", "y"] 5 DB.empty) =
       setPollTags 0 1 ["x", "y"] 5 DB.empty ∧
     MapPerKeyUnique (setPollTags 0 1 ["x", "y"] 5 DB.empty)) :=
  ⟨by unfold MapPerKeyUnique; decide,
   C5_set_tags_idempotent 0 1 5 ["x", "y"] DB.empty
     (by unfold MapPerKeyUnique; decide)⟩

end Tx
